import Mathlib

/-!
Shallow embedding of the two markdown fixer scripts of the repository
(`fix-remaining-md-errors.py` and `fix-md-complete.py`) and proofs about the
claims of the specification.

Python strings are modelled as `List Char`; a document is split on `'\n'`
into lines exactly as `str.split('\n')` does.  Python's whitespace class
(used by `\s` in the regexes and by `str.strip()`) is modelled by
`isPySpace`, covering the ASCII whitespace characters together with the
additional control and Unicode space characters Python treats as
whitespace.  Each regex of the source is embedded as an executable function
whose match semantics (greedy/lazy backtracking of the concrete pattern)
was derived by hand and is documented at the definition.
-/

namespace Luciferase

abbrev Line := List Char

/-- The backtick character (written through a string literal). -/
def btk : Char := "`".toList.headD ' '

/-- Python whitespace (`\s`, `str.strip`): ASCII whitespace plus the file
separators, NEL, NBSP and the Unicode space separators. -/
def isPySpace (c : Char) : Bool :=
  c = ' ' || c = '\t' || c = '\n' || c = '\r' || c = '\x0b' || c = '\x0c' ||
  c = '\x1c' || c = '\x1d' || c = '\x1e' || c = '\x1f' || c = '\x85' ||
  c = '\xa0' || c = ' ' || (0x2000 ≤ c.toNat && c.toNat ≤ 0x200a) ||
  c = ' ' || c = ' ' || c = ' ' || c = ' ' || c = '　'

/-- The heading punctuation class `[.,;:]` of MD026. -/
def isPunct (c : Char) : Bool :=
  c = '.' || c = ',' || c = ';' || c = ':'

/-- `str.lstrip()`. -/
def lstrip (l : Line) : Line := l.dropWhile isPySpace

/-- `str.rstrip()`. -/
def rstrip (l : Line) : Line := (l.reverse.dropWhile isPySpace).reverse

/-- `str.strip()`. -/
def strip (l : Line) : Line := rstrip (lstrip l)

/-- `str.rstrip('\n')`. -/
def rstripNl (s : List Char) : List Char :=
  (s.reverse.dropWhile (· = '\n')).reverse

/-- `str.startswith(p)`. -/
def startsWith (p l : Line) : Bool :=
  decide (p <+: l)

/-- `str.endswith(p)`. -/
def endsWith (p l : Line) : Bool :=
  decide (p <:+ l)

/-- Helper for `splitSep`: returns the first field and the remaining fields. -/
def splitSepA (c : Char) : List Char → Line × List Line
  | [] => ([], [])
  | a :: s =>
    let r := splitSepA c s
    if a = c then ([], r.1 :: r.2) else (a :: r.1, r.2)

/-- `str.split(c)` for a one-character separator (always a nonempty list). -/
def splitSep (c : Char) (s : List Char) : List Line :=
  (splitSepA c s).1 :: (splitSepA c s).2

/-- `c.join(ls)` for a one-character separator. -/
def joinSep (c : Char) : List Line → List Char
  | [] => []
  | [l] => l
  | l :: ls => l ++ c :: joinSep c ls

theorem joinSep_cons (c : Char) (l : Line) (ls : List Line) (h : ls ≠ []) :
    joinSep c (l :: ls) = l ++ c :: joinSep c ls := by
  cases ls with
  | nil => exact absurd rfl h
  | cons y ys => rfl

theorem joinSep_splitSep (c : Char) (s : List Char) :
    joinSep c (splitSep c s) = s := by
  induction s with
  | nil => rfl
  | cons a s ih =>
    by_cases h : a = c
    · subst h
      simp only [splitSep, splitSepA, if_pos rfl]
      rw [joinSep_cons _ _ _ (by simp)]
      simpa [splitSep] using ih
    · simp only [splitSep, splitSepA, if_neg h]
      rcases hr : (splitSepA c s).2 with _ | ⟨y, ys⟩
      · simp only [joinSep]
        have := ih
        rw [splitSep, hr] at this
        simp only [joinSep] at this
        simp [this]
      · rw [joinSep_cons _ _ _ (by simp)]
        have := ih
        rw [splitSep, hr] at this
        rw [joinSep_cons _ _ _ (by simp)] at this
        simp [this]

theorem splitSep_sepFree (c : Char) (l : Line) (h : c ∉ l) :
    splitSep c l = [l] := by
  induction l with
  | nil => rfl
  | cons a s ih =>
    have ha : a ≠ c := fun e => h (e ▸ List.mem_cons_self a s)
    have hs : c ∉ s := fun e => h (List.mem_cons_of_mem a e)
    simp only [splitSep, splitSepA, if_neg ha]
    have := ih hs
    simp only [splitSep] at this
    injection this with h1 h2
    simp [h1, h2]

theorem splitSep_append_sep_cons (c : Char) (x y : List Char) (h : c ∉ x) :
    splitSep c (x ++ c :: y) = x :: splitSep c y := by
  induction x with
  | nil => simp [splitSep, splitSepA]
  | cons a s ih =>
    have ha : a ≠ c := fun e => h (e ▸ List.mem_cons_self a s)
    have hs : c ∉ s := fun e => h (List.mem_cons_of_mem a e)
    have := ih hs
    simp only [splitSep] at this ⊢
    simp only [List.cons_append, splitSepA, if_neg ha]
    injection this with h1 h2
    simp [h1, h2]

theorem splitSep_joinSep (c : Char) (ls : List Line) (h : ls ≠ [])
    (hf : ∀ l ∈ ls, c ∉ l) : splitSep c (joinSep c ls) = ls := by
  induction ls with
  | nil => exact absurd rfl h
  | cons l ls ih =>
    cases ls with
    | nil => exact splitSep_sepFree c l (hf l (by simp))
    | cons m ms =>
      rw [joinSep_cons _ _ _ (by simp)]
      rw [splitSep_append_sep_cons c _ _ (hf l (by simp))]
      rw [ih (by simp) (fun x hx => hf x (List.mem_cons_of_mem l hx))]

theorem mem_splitSep_sepFree (c : Char) (s : List Char) (l : Line)
    (h : l ∈ splitSep c s) : c ∉ l := by
  induction s generalizing l with
  | nil =>
    simp only [splitSep, splitSepA, List.mem_singleton] at h
    subst h; simp
  | cons a s ih =>
    by_cases ha : a = c
    · subst ha
      simp only [splitSep, splitSepA, if_pos rfl, List.mem_cons] at h
      rcases h with h | h
      · subst h; simp
      · exact ih l h
    · simp only [splitSep, splitSepA, if_neg ha, List.mem_cons] at h
      rcases h with h | h
      · subst h
        intro hc
        rcases List.mem_cons.1 hc with e | e
        · exact ha e.symm
        · exact ih _ (by simp [splitSep]) e
      · exact ih l (by simp [splitSep, h])

theorem splitSep_append_sep (c : Char) (s : List Char) :
    splitSep c (s ++ [c]) = splitSep c s ++ [[]] := by
  induction s with
  | nil => simp [splitSep, splitSepA]
  | cons a s ih =>
    by_cases ha : a = c
    · subst ha
      simp only [List.cons_append, splitSep, splitSepA, if_pos rfl] at ih ⊢
      injection ih with h1 h2
      simp [h1, h2]
    · simp only [List.cons_append, splitSep, splitSepA, if_neg ha] at ih ⊢
      injection ih with h1 h2
      simp [h1, h2]

/-! ## `fix_markdown_errors` (src/fix-remaining-md-errors.py) -/

/-- MD026 rule: `if line.startswith('#'): m = re.match(r'^(#+\s+.+?)([.,;:]+)(\s*)$', line); if m: line = m.group(1) + m.group(3)`.
The regex matches iff, writing the line as a maximal run of `#` followed by
`R`, there is a decomposition `R = w ++ cc ++ p ++ t` with `w` nonempty
whitespace, `cc` nonempty, `p` a nonempty punctuation run and `t` whitespace.
Backtracking (greedy `#+` and `\s+`, lazy `.+?`, greedy `[.,;:]+` and `\s*`)
resolves the groups as follows: with `a* ` the maximal whitespace prefix of
`R`, `t*` its maximal whitespace suffix, `M = R` without `t*` and `p*` the
maximal punctuation suffix of `M`, the kept part `group1 = R[0..j)` has
`j = max (a*+1) (|M| - |p*|)` when `|M| ≥ a* + 2`, and `j = a*` when
`M` is the whitespace prefix followed by a single punctuation character
(possible only when `a* ≥ 2`; with `a* = 1` the regex cannot match). -/
def md026 (l : Line) : Line :=
  if startsWith ['#'] l then
    let hs := l.takeWhile (· = '#')
    let R := l.dropWhile (· = '#')
    let aStar := (R.takeWhile isPySpace).length
    if aStar = 0 then l
    else
      let tStar := (R.reverse.takeWhile isPySpace).reverse
      let M := rstrip R
      let pLen := (M.reverse.takeWhile isPunct).length
      if pLen = 0 then l
      else if aStar + 2 ≤ M.length then
        hs ++ R.take (max (aStar + 1) (M.length - pLen)) ++ tStar
      else if 2 ≤ aStar then hs ++ R.take aStar ++ tStar
      else l
  else l

/-- MD007 rule: `if re.match(r'^    [-*]\s+', line): line = line.replace('    ', '  ', 1)`.
When the regex matches, the line starts with exactly four spaces, so the
first occurrence of `'    '` is at position 0. -/
def md007Hit (l : Line) : Bool :=
  match l with
  | ' ' :: ' ' :: ' ' :: ' ' :: m :: c :: _ =>
    (m = '-' || m = '*') && isPySpace c
  | _ => false

/-- MD007 rewrite. -/
def md007 (l : Line) : Line :=
  if md007Hit l then ' ' :: ' ' :: l.drop 4 else l

/-- MD009 rule: `if line.endswith(' ') and not line.endswith('  '): line = line.rstrip()`. -/
def md009 (l : Line) : Line :=
  if endsWith [' '] l && !endsWith [' ', ' '] l then rstrip l else l

/-- MD037 scan: `re.sub(r'\*\s+([^*]+?)\s+\*', r'*\1*', line)`, with an
explicit fuel argument (one unit per examined character position) to keep the
recursion structural.  At a `*` at position `i`, writing `u` for the
characters strictly between it and the next `*` (at position `e`), the
pattern matches iff at least one whitespace character follows position `i`,
`|u| ≥ 3` and the character before `e` is whitespace; the greedy/lazy
backtracking then takes `a = min A (|u| - 2)` leading whitespace characters
(with `A` the maximal whitespace run after `i`) and
`c = min W (|u| - a - 1)` trailing whitespace characters (with `W` the
maximal whitespace run before `e`), leaving `group1 = u[a .. |u|-c)`; the
scan resumes after `e`. -/
def starMatch (rest : List Char) : Option (Line × Line) :=
  let A := (rest.takeWhile isPySpace).length
  if A = 0 then none
  else
    match rest.dropWhile (· ≠ '*') with
    | [] => none
    | _ :: v =>
      let u := rest.takeWhile (· ≠ '*')
      let N := u.length
      if 3 ≤ N && isPySpace (u.getLastD '*') then
        let W := (u.reverse.takeWhile isPySpace).length
        let a := min A (N - 2)
        let cc := min W (N - a - 1)
        some ((u.drop a).take (N - a - cc), v)
      else none

/-- The character scan of the MD037 substitution: on a failed position the
scan advances one character, on a successful match it emits the tightened
emphasis and resumes after the closing `*`. -/
def md037Go : Nat → List Char → List Char
  | 0, s => s
  | _, [] => []
  | f + 1, c :: rest =>
    if c = '*' then
      match starMatch rest with
      | none => c :: md037Go f rest
      | some (g, v) => '*' :: g ++ '*' :: md037Go f v
    else c :: md037Go f rest

/-- MD037 rewrite. -/
def md037 (l : Line) : Line := md037Go l.length l

/-- Shape test `re.match(r'^\|.+\|$', x)`: a `|`, at least one character,
a final `|` — i.e. length at least 3, first and last character `|`. -/
def tableShape (x : Line) : Bool :=
  3 ≤ x.length && x.headD ' ' = '|' && x.getLastD ' ' = '|'

/-- Shape test `re.match(r'^\|[-:| ]+\|$', x)`: a `|`, then at least one
character from `[-:| ]`, then a final `|` — i.e. length at least 3, first
and last character `|`, every interior character in the class. -/
def sepShape (x : Line) : Bool :=
  3 ≤ x.length && x.headD ' ' = '|' && x.getLastD ' ' = '|' &&
    (x.drop 1).dropLast.all (fun c => c = '-' || c = ':' || c = '|' || c = ' ')

/-- Helper of `mapInterior`: rewrites all fields except the last one. -/
def mapInteriorLast (f : Line → Line) : List Line → List Line
  | [] => []
  | [p] => [p]
  | p :: ps => f p :: mapInteriorLast f ps

/-- Rewrites the interior fields of a `|`-split list, keeping the first and
last field verbatim (the `j == 0 or j == len(parts) - 1` branch of both
table rules). -/
def mapInterior (f : Line → Line) : List Line → List Line
  | [] => []
  | [p] => [p]
  | p :: ps => p :: mapInteriorLast f ps

/-- MD060 rule of `fix_markdown_errors`: a non-separator table row
(`'|' in line and re.match(r'^\|.+\|$', line.strip())` but not
`re.match(r'^\|[-:| ]+\|$', line)`) has each interior `|`-field stripped. -/
def md060e (l : Line) : Line :=
  if l.contains '|' && tableShape (strip l) && !sepShape l then
    joinSep '|' (mapInterior strip (splitSep '|' l))
  else l

/-- The per-line rewrite of `fix_markdown_errors` for a line outside code
blocks, in source order: MD026, MD007, (MD029 is a no-op), MD009, MD037,
MD060. -/
def fixErrLine (l : Line) : Line :=
  md060e (md037 (md009 (md007 (md026 l))))

/-- Code-fence delimiter test `line.strip().startswith('```')` used by both
fixers. -/
def isFence (l : Line) : Bool :=
  startsWith ("```".toList) (strip l)

/-- The line loop of `fix_markdown_errors`, carrying the `in_code_block`
toggle: a fence-delimiter line flips the state and is emitted verbatim, a
line inside a code block is emitted verbatim, any other line is rewritten
by `fixErrLine`. -/
def fmeGo : Bool → List Line → List Line
  | _, [] => []
  | inCode, l :: ls =>
    if isFence l then l :: fmeGo (!inCode) ls
    else if inCode then l :: fmeGo inCode ls
    else fixErrLine l :: fmeGo inCode ls

/-- `fix_markdown_errors(content)` of src/fix-remaining-md-errors.py. -/
def fix_markdown_errors (content : List Char) : List Char :=
  joinSep '\n' (fmeGo false (splitSep '\n' content))

/-! ## `fix_markdown_complete` (src/fix-md-complete.py) -/

/-- Removal of every space character: `s.replace(' ', '')`. -/
def removeSpaces (l : Line) : Line := l.filter (· ≠ ' ')

/-- Interior-cell rewrite of the MD060 pass of `fix_markdown_complete`:
`f' {part.strip().replace(" ", "")} '`. -/
def sepCell (p : Line) : Line :=
  ' ' :: (removeSpaces (strip p) ++ [' '])

/-- First pass of `fix_markdown_complete` on one line: a line whose strip is
exactly ``` ``` ``` becomes ````text`, and a table separator row
(`re.match(r'^\|[-:| ]+\|$', line)`) has its interior cells rewritten by
`sepCell`; both tests read the original line, and cannot both match. -/
def pass1Line (l : Line) : Line :=
  let l1 := if strip l = "```".toList then "```text".toList else l
  if sepShape l then joinSep '|' (mapInterior sepCell (splitSep '|' l)) else l1

/-- Heading test of the second pass: `line.startswith('#') and len(line) > 1
and line[1] in (' ', '#')`. -/
def isHeading (l : Line) : Bool :=
  match l with
  | a :: c :: _ => a = '#' && (c = ' ' || c = '#')
  | _ => false

/-- List-item test of the second pass:
`re.match(r'^(\s*)[-*]\s+|^(\s*)\d+\.\s+', line)`. -/
def isListLine (l : Line) : Bool :=
  (match l.dropWhile isPySpace with
   | m :: c :: _ => (m = '-' || m = '*') && isPySpace c
   | _ => false) ||
  (let d := l.dropWhile isPySpace
   let ds := d.takeWhile (·.isDigit)
   ds ≠ [] &&
     match d.drop ds.length with
     | '.' :: c :: _ => isPySpace c
     | _ => false)

/-- Blank test `not line.strip()`. -/
def isBlank (l : Line) : Bool := strip l = []

/-- Blank lines inserted before a line by the second pass of
`fix_markdown_complete` (MD022/MD032/MD031 "before" conditions, in source
order, with `prev` the preceding line of the pre-insertion sequence). -/
def beforeBlanks (prev l : Line) : List Line :=
  (if isHeading l && !isBlank prev && !isHeading prev && strip prev ≠ []
   then [[]] else []) ++
  (if isListLine l && !isBlank prev && !isListLine prev && !isHeading prev &&
      !isFence prev && strip prev ≠ []
   then [[]] else []) ++
  (if isFence l && !isBlank prev && !isHeading prev && strip prev ≠ []
   then [[]] else [])

/-- Blank lines inserted after a line by the second pass of
`fix_markdown_complete` (MD022/MD032/MD031 "after" conditions, in source
order, with `next` the following line of the pre-insertion sequence). -/
def afterBlanks (l next : Line) : List Line :=
  (if isHeading l && !isBlank next && !isHeading next && strip next ≠ []
   then [[]] else []) ++
  (if isListLine l && !isBlank next && !isListLine next && !isHeading next &&
      strip next ≠ []
   then [[]] else []) ++
  (if isFence l && !isBlank next && !isHeading next && strip next ≠ []
   then [[]] else [])

/-- The lines emitted by one iteration of the second pass. -/
def pass2Block (prev l next : Line) : List Line :=
  beforeBlanks prev l ++ l :: afterBlanks l next

/-- Second pass of `fix_markdown_complete`: each line is emitted preceded
and followed by the blank lines of `pass2Block`, with neighbours taken from
the original (pass-one) sequence; a missing neighbour is the empty line. -/
def pass2Go : Line → List Line → List Line
  | _, [] => []
  | prev, l :: ls => pass2Block prev l (ls.headD []) ++ pass2Go l ls

/-- Second pass of `fix_markdown_complete` over the whole line list. -/
def pass2 (ls : List Line) : List Line := pass2Go [] ls

/-- MD012 cleanup `re.sub(r'\n\n\n+', '\n\n', text)`: every maximal run of
`k` newline characters is replaced by `min k 2` newlines.  `k` counts the
pending newlines of the current run. -/
def collapseGo : Nat → List Char → List Char
  | k, [] => List.replicate (min k 2) '\n'
  | k, c :: cs =>
    if c = '\n' then collapseGo (k + 1) cs
    else List.replicate (min k 2) '\n' ++ c :: collapseGo 0 cs

/-- MD012 cleanup over a whole text. -/
def collapseNl (s : List Char) : List Char := collapseGo 0 s

/-- `fix_markdown_complete(content)` of src/fix-md-complete.py: pass one on
each line, the blank-line insertion pass, then the MD012 collapse and the
MD047 final-newline normalisation `text.rstrip('\n') + '\n'`. -/
def fix_markdown_complete (content : List Char) : List Char :=
  rstripNl (collapseNl (joinSep '\n'
    (pass2 ((splitSep '\n' content).map pass1Line)))) ++ ['\n']

/-- Code-fence state of `fix_markdown_errors` before line `i`: each
fence-delimiter line among the first `i` lines flips the toggle. -/
def stateAt : Bool → List Line → Nat → Bool
  | b, _, 0 => b
  | b, [], _ + 1 => b
  | b, l :: ls, n + 1 => stateAt (if isFence l then !b else b) ls n

/-! ## Helper lemmas -/

theorem takeWhile_append_all (p : Char → Bool) (x y : List Char)
    (hx : ∀ c ∈ x, p c = true) :
    (x ++ y).takeWhile p = x ++ y.takeWhile p := by
  induction x with
  | nil => rfl
  | cons a t ih =>
    simp only [List.cons_append, List.takeWhile_cons, hx a (by simp), if_true]
    rw [ih (fun c hc => hx c (by simp [hc]))]

theorem dropWhile_append_all (p : Char → Bool) (x y : List Char)
    (hx : ∀ c ∈ x, p c = true) :
    (x ++ y).dropWhile p = y.dropWhile p := by
  induction x with
  | nil => rfl
  | cons a t ih =>
    simp only [List.cons_append, List.dropWhile_cons, hx a (by simp), if_true]
    exact ih (fun c hc => hx c (by simp [hc]))

theorem takeWhile_all_false (p : Char → Bool) (x : List Char)
    (hx : ∀ c ∈ x, p c = false) : x.takeWhile p = [] := by
  cases x with
  | nil => rfl
  | cons a t => simp [List.takeWhile_cons, hx a (by simp)]

theorem dropWhile_all_false (p : Char → Bool) (x : List Char)
    (hx : ∀ c ∈ x, p c = false) : x.dropWhile p = x := by
  cases x with
  | nil => rfl
  | cons a t => simp [List.dropWhile_cons, hx a (by simp)]

theorem takeWhile_neq_append (ch : Char) (x y : List Char)
    (hx : ch ∉ x) :
    (x ++ ch :: y).takeWhile (· ≠ ch) = x := by
  induction x with
  | nil => simp [List.takeWhile_cons]
  | cons a t ih =>
    have ha : a ≠ ch := fun e => hx (e ▸ List.mem_cons_self a t)
    simp only [List.cons_append, List.takeWhile_cons, decide_eq_true_eq]
    rw [if_pos ha, ih (fun e => hx (List.mem_cons_of_mem a e))]

theorem dropWhile_neq_append (ch : Char) (x y : List Char)
    (hx : ch ∉ x) :
    (x ++ ch :: y).dropWhile (· ≠ ch) = ch :: y := by
  induction x with
  | nil => simp [List.dropWhile_cons]
  | cons a t ih =>
    have ha : a ≠ ch := fun e => hx (e ▸ List.mem_cons_self a t)
    simp only [List.cons_append, List.dropWhile_cons, decide_eq_true_eq]
    rw [if_pos ha, ih (fun e => hx (List.mem_cons_of_mem a e))]

theorem dropWhile_append_singleton (p : Char → Bool) (u : List Char) (c : Char)
    (hc : p c = false) : (u ++ [c]).dropWhile p = u.dropWhile p ++ [c] := by
  induction u with
  | nil => simp [List.dropWhile_cons, hc]
  | cons a t ih =>
    by_cases ha : p a = true
    · simp only [List.cons_append, List.dropWhile_cons, ha, if_true]
      exact ih
    · simp [List.dropWhile_cons, ha]

theorem rstrip_cons (c : Char) (xs : Line) (hc : isPySpace c = false) :
    rstrip (c :: xs) = c :: rstrip xs := by
  unfold rstrip
  rw [show (c :: xs).reverse = xs.reverse ++ [c] by simp,
    dropWhile_append_singleton _ _ _ hc]
  simp

theorem strip_cons (c : Char) (xs : Line) (hc : isPySpace c = false) :
    strip (c :: xs) = c :: rstrip xs := by
  unfold strip lstrip
  rw [List.dropWhile_cons, if_neg (by simp [hc]), rstrip_cons c xs hc]

theorem rstrip_sub (l : Line) : ∀ c ∈ rstrip l, c ∈ l := by
  intro c hc
  unfold rstrip at hc
  rw [List.mem_reverse] at hc
  exact List.mem_reverse.mp ((List.dropWhile_suffix _).subset hc)

theorem strip_sub (l : Line) : ∀ c ∈ strip l, c ∈ l := by
  intro c hc
  exact (List.dropWhile_suffix _).subset (rstrip_sub _ c hc)

theorem mem_joinSep (c : Char) (ls : List Line) (x : Char)
    (hx : x ∈ joinSep c ls) : x = c ∨ ∃ l ∈ ls, x ∈ l := by
  induction ls with
  | nil => simp [joinSep] at hx
  | cons l ls ih =>
    cases ls with
    | nil =>
      simp only [joinSep] at hx
      exact Or.inr ⟨l, by simp, hx⟩
    | cons m ms =>
      rw [joinSep_cons _ _ _ (by simp)] at hx
      rcases List.mem_append.mp hx with h | h
      · exact Or.inr ⟨l, by simp, h⟩
      · rcases List.mem_cons.mp h with h | h
        · exact Or.inl h
        · rcases ih h with h | ⟨m', hm', hxm⟩
          · exact Or.inl h
          · exact Or.inr ⟨m', List.mem_cons_of_mem l hm', hxm⟩

theorem mem_splitSep_chars (c : Char) (s : List Char) (l : Line) (x : Char)
    (hl : l ∈ splitSep c s) (hx : x ∈ l) : x ∈ s := by
  induction s generalizing l with
  | nil =>
    simp only [splitSep, splitSepA, List.mem_singleton] at hl
    subst hl; simp at hx
  | cons a s ih =>
    by_cases ha : a = c
    · subst ha
      simp only [splitSep, splitSepA, if_pos rfl, List.mem_cons] at hl
      rcases hl with hl | hl
      · subst hl; simp at hx
      · exact List.mem_cons_of_mem _ (ih l hl hx)
    · simp only [splitSep, splitSepA, if_neg ha, List.mem_cons] at hl
      rcases hl with hl | hl
      · subst hl
        rcases List.mem_cons.mp hx with hx | hx
        · simp [hx]
        · exact List.mem_cons_of_mem _ (ih _ (by simp [splitSep]) hx)
      · exact List.mem_cons_of_mem _ (ih l (by simp [splitSep, hl]) hx)

theorem mem_mapInteriorLast (f : Line → Line) (ps : List Line) (x : Line)
    (hx : x ∈ mapInteriorLast f ps) : x ∈ ps ∨ ∃ p ∈ ps, x = f p := by
  induction ps with
  | nil => simp [mapInteriorLast] at hx
  | cons p ps ih =>
    cases ps with
    | nil =>
      simp only [mapInteriorLast, List.mem_singleton] at hx
      exact Or.inl (by simp [hx])
    | cons q qs =>
      simp only [mapInteriorLast, List.mem_cons] at hx
      rcases hx with hx | hx
      · exact Or.inr ⟨p, by simp, hx⟩
      · rcases ih hx with h | ⟨p', hp', he⟩
        · exact Or.inl (List.mem_cons_of_mem p h)
        · exact Or.inr ⟨p', List.mem_cons_of_mem p hp', he⟩

theorem mem_mapInterior (f : Line → Line) (ps : List Line) (x : Line)
    (hx : x ∈ mapInterior f ps) : x ∈ ps ∨ ∃ p ∈ ps, x = f p := by
  cases ps with
  | nil => simp [mapInterior] at hx
  | cons p ps =>
    cases ps with
    | nil =>
      simp only [mapInterior, List.mem_singleton] at hx
      exact Or.inl (by simp [hx])
    | cons q qs =>
      simp only [mapInterior, List.mem_cons] at hx
      rcases hx with hx | hx
      · exact Or.inl (by simp [hx])
      · rcases mem_mapInteriorLast f _ x hx with h | ⟨p', hp', he⟩
        · exact Or.inl (List.mem_cons_of_mem p h)
        · exact Or.inr ⟨p', List.mem_cons_of_mem p hp', he⟩

theorem md037Go_nil (f : Nat) : md037Go f [] = [] := by
  cases f <;> rfl

theorem md037Go_cons_star (f : Nat) (rest : List Char) :
    md037Go (f + 1) ('*' :: rest) =
      match starMatch rest with
      | none => '*' :: md037Go f rest
      | some (g, v) => '*' :: g ++ '*' :: md037Go f v := by
  simp [md037Go]

theorem md037Go_cons_star_none (f : Nat) (rest : List Char)
    (h : starMatch rest = none) :
    md037Go (f + 1) ('*' :: rest) = '*' :: md037Go f rest := by
  rw [md037Go_cons_star, h]

theorem md037Go_cons_star_some (f : Nat) (rest : List Char) (g v : Line)
    (h : starMatch rest = some (g, v)) :
    md037Go (f + 1) ('*' :: rest) = '*' :: g ++ '*' :: md037Go f v := by
  rw [md037Go_cons_star, h]

theorem md037Go_no_star (s : List Char) (hs : '*' ∉ s) (f : Nat) :
    md037Go f s = s := by
  induction s generalizing f with
  | nil => exact md037Go_nil f
  | cons c cs ih =>
    cases f with
    | zero => rfl
    | succ f =>
      have hc : ¬(c = '*') := fun e => hs (e ▸ List.mem_cons_self c cs)
      simp only [md037Go, if_neg hc]
      rw [ih (fun e => hs (List.mem_cons_of_mem c e)) f]

theorem sepShape_head (l : Line) (h : sepShape l = true) :
    ∃ rest, l = '|' :: rest := by
  cases l with
  | nil => exact absurd h (by decide)
  | cons a rest =>
    simp only [sepShape, Bool.and_eq_true, decide_eq_true_eq] at h
    exact ⟨rest, by rw [show a = '|' from by simpa using h.1.1.2]⟩

/-! ## Claim C3 -/

/-- Claim C3 counterexample: on the input with a bare opening fence, a
content line and a bare closing fence, the closing delimiter (fence state
is open before line 2, which is a fence line) is also rewritten to carry
the `text` tag, contradicting the claim that a closing delimiter is left
without a tag. -/
theorem c3_counterexample :
    stateAt false (splitSep '\n' ("```\na\n```".toList)) 2 = true ∧
    (splitSep '\n' ("```\na\n```".toList)).get? 2 = some ("```".toList) ∧
    fix_markdown_complete ("```\na\n```".toList) =
      ("```text\n\na\n\n```text\n".toList) := by
  refine ⟨by decide, by decide, by decide⟩

/-- Claim C3 amended: in `fix_markdown_complete`, every line whose trimmed
content is exactly the bare code-fence delimiter is rewritten by the first
pass to carry the default language tag `text`, regardless of whether it is
an opening or a closing delimiter (no fence state is tracked). -/
theorem c3_amended (l : Line) (h : strip l = "```".toList) :
    pass1Line l = "```text".toList := by
  have hsep : sepShape l = false := by
    by_contra hb
    have hb' : sepShape l = true := by
      cases hc : sepShape l
      · exact absurd hc hb
      · rfl
    obtain ⟨rest, hrest⟩ := sepShape_head l hb'
    subst hrest
    rw [strip_cons _ _ (by decide)] at h
    rw [show ("```".toList : List Char) = '`' :: '`' :: '`' :: [] from rfl] at h
    simp at h
  simp only [pass1Line, hsep, Bool.false_eq_true, if_false, h, if_true]

/-- Claim C3 amended, witness at an indented bare fence line. -/
theorem c3_witness :
    strip ("  ``` ".toList) = "```".toList ∧
    pass1Line ("  ``` ".toList) = "```text".toList :=
  ⟨by decide, c3_amended _ (by decide)⟩

/-! ## Claim C4 -/

/-- Claim C4 counterexample: a line ending in three trailing spaces also
ends in two trailing spaces, so `fix_markdown_errors` preserves it instead
of stripping it to zero trailing spaces as the claim states. -/
theorem c4_counterexample :
    fix_markdown_errors ("a   ".toList) = ("a   ".toList) ∧
    ("a   ".toList : Line) ≠ ("a".toList : Line) := by
  refine ⟨by decide, by decide⟩

/-- Claim C4 amended: under the trailing-space rule of
`fix_markdown_errors`, a line ending in two or more trailing spaces is
preserved verbatim, and a line ending in exactly one trailing space has all
its trailing whitespace stripped. -/
theorem c4_amended (l : Line) :
    (endsWith [' ', ' '] l = true → md009 l = l) ∧
    (endsWith [' '] l = true → endsWith [' ', ' '] l = false →
      md009 l = rstrip l) := by
  constructor
  · intro h2
    simp [md009, h2]
  · intro h1 h2
    simp [md009, h1, h2]

/-- Claim C4 amended, witness: one trailing space is stripped, two and
three trailing spaces are preserved. -/
theorem c4_witness :
    md009 ("a ".toList) = ("a".toList) ∧
    md009 ("a  ".toList) = ("a  ".toList) ∧
    md009 ("a   ".toList) = ("a   ".toList) := by
  refine ⟨?_, (c4_amended ("a  ".toList)).1 (by decide),
    (c4_amended ("a   ".toList)).1 (by decide)⟩
  have := (c4_amended ("a ".toList)).2 (by decide) (by decide)
  rw [this]; decide

/-! ## Claim C5 -/

/-- Claim C5 counterexample: the line `* a *` is a list-item line (leading
`*` marker followed by a space), yet the emphasis rewrite of
`fix_markdown_errors` consumes its marker, producing `*a*`, which is no
longer a list-item line — the marker and spacing are not kept intact. -/
theorem c5_counterexample :
    isListLine ("* a *".toList) = true ∧
    fix_markdown_errors ("* a *".toList) = ("*a*".toList) ∧
    isListLine ("*a*".toList) = false := by
  refine ⟨by decide, by decide, by decide⟩

/-- Claim C5 amended: the emphasis rewrite tightens `* text *` to `*text*`
even when the leading `*` is a list marker (first conjunct, for a word
`t` free of `*` and whitespace), and a list-item line whose remainder
contains no further `*` is kept intact (second conjunct). -/
theorem c5_amended (t rest : Line) :
    (t ≠ [] → (∀ c ∈ t, ¬(c = '*') ∧ isPySpace c = false) →
      md037 ('*' :: ' ' :: (t ++ (' ' :: '*' :: []))) = '*' :: (t ++ ['*'])) ∧
    ('*' ∉ rest → md037 ('*' :: ' ' :: rest) = '*' :: ' ' :: rest) := by
  constructor
  · intro ht h
    have hstar : '*' ∉ t := fun hm => (h '*' hm).1 rfl
    have hws : ∀ c ∈ t, isPySpace c = false := fun c hc => (h c hc).2
    have htpos : 1 ≤ t.length := by
      cases t with
      | nil => exact absurd rfl ht
      | cons a1 t1 => simp
    have hxni : '*' ∉ (' ' :: (t ++ [' '])) := by
      intro hm
      rcases List.mem_cons.mp hm with hm | hm
      · exact absurd hm.symm (by decide)
      · rcases List.mem_append.mp hm with hm | hm
        · exact hstar hm
        · exact absurd (List.mem_singleton.mp hm).symm (by decide)
    have hdw : (' ' :: (t ++ (' ' :: '*' :: []))).dropWhile (· ≠ '*') =
        '*' :: [] := by
      have := dropWhile_neq_append '*' (' ' :: (t ++ [' '])) [] hxni
      simpa using this
    have htw : (' ' :: (t ++ (' ' :: '*' :: []))).takeWhile (· ≠ '*') =
        ' ' :: (t ++ [' ']) := by
      have := takeWhile_neq_append '*' (' ' :: (t ++ [' '])) [] hxni
      simpa using this
    have htwsp : (' ' :: (t ++ (' ' :: '*' :: []))).takeWhile isPySpace =
        [' '] := by
      rw [List.takeWhile_cons, if_pos (by decide)]
      cases t with
      | nil => exact absurd rfl ht
      | cons a1 t1 =>
        simp [List.takeWhile_cons, hws a1 (by simp)]
    have hgl0 : (' ' :: (t ++ [' '])).getLast? = some ' ' := by
      rw [show (' ' :: (t ++ [' '])) = ((' ' :: t) ++ [' ']) from rfl]
      exact List.getLast?_concat _
    have hgl : (' ' :: (t ++ [' '])).getLastD '*' = ' ' := by
      rw [List.getLastD_eq_getLast?, hgl0]
      rfl
    have hrev : ((' ' :: (t ++ [' '])).reverse.takeWhile isPySpace) =
        [' '] := by
      rw [show (' ' :: (t ++ [' '])).reverse = ' ' :: (t.reverse ++ [' '])
        by simp]
      rw [List.takeWhile_cons, if_pos (by decide)]
      cases hrt : t.reverse with
      | nil =>
        rw [List.reverse_eq_nil_iff] at hrt
        exact absurd hrt ht
      | cons b tb =>
        have hb : b ∈ t := by
          rw [← List.mem_reverse, hrt]; simp
        simp [List.takeWhile_cons, hws b hb]
    have hulen : (' ' :: (t ++ [' '])).length = t.length + 2 := by
      simp [List.length_append]
    have htk : ∀ n : Nat, n = t.length → (t ++ [' ']).take n = t := by
      intro n hn
      subst hn
      exact List.take_left t [' ']
    have hsm : starMatch (' ' :: (t ++ (' ' :: '*' :: []))) = some (t, []) := by
      unfold starMatch
      rw [htwsp]
      rw [if_neg (by simp)]
      rw [hdw]
      simp only [htw, hgl, hrev, hulen]
      rw [if_pos (by simp [List.length_append]; exact ⟨htpos, by decide⟩)]
      have hdr : ∀ n : Nat, n = 1 → (' ' :: (t ++ [' '])).drop n = t ++ [' '] := by
        intro n hn
        subst hn
        rfl
      rw [hdr _ (by simp only [List.length_singleton, inf_eq_min]; omega)]
      rw [htk _ (by simp only [List.length_singleton, inf_eq_min]; omega)]
    have hlen : ('*' :: ' ' :: (t ++ (' ' :: '*' :: []))).length =
        (t.length + 3) + 1 := by simp
    rw [md037, hlen, md037Go_cons_star_some _ _ _ _ hsm, md037Go_nil]
    simp
  · intro hr
    have hni : '*' ∉ (' ' :: rest) := by
      intro hm
      rcases List.mem_cons.mp hm with hm | hm
      · exact absurd hm.symm (by decide)
      · exact hr hm
    have hdw : (' ' :: rest).dropWhile (· ≠ '*') = [] := by
      have hall : ∀ c ∈ (' ' :: rest), (fun x => decide ¬(x = '*')) c = true := by
        intro c hc
        simp only [decide_eq_true_eq]
        intro he
        exact hni (he ▸ hc)
      have := dropWhile_append_all (fun x => decide ¬(x = '*')) (' ' :: rest) [] hall
      simpa using this
    have hsm : starMatch (' ' :: rest) = none := by
      unfold starMatch
      by_cases hz : ((' ' :: rest).takeWhile isPySpace).length = 0
      · rw [if_pos hz]
      · rw [if_neg hz, hdw]
    have hlen : ('*' :: ' ' :: rest).length = (rest.length + 1) + 1 := by simp
    rw [md037, hlen, md037Go_cons_star_none _ _ hsm,
      md037Go_no_star (' ' :: rest) hni _]

/-- Claim C5 amended, witness: `* text *` is tightened to `*text*` (marker
consumed), while `* item one` is kept intact. -/
theorem c5_witness :
    md037 ('*' :: ' ' :: (("text".toList) ++ (' ' :: '*' :: []))) =
      '*' :: (("text".toList) ++ ['*']) ∧
    md037 ('*' :: ' ' :: ("item one".toList)) =
      '*' :: ' ' :: ("item one".toList) :=
  ⟨(c5_amended ("text".toList) ("item one".toList)).1 (by decide) (by decide),
   (c5_amended ("text".toList) ("item one".toList)).2 (by decide)⟩

/-! ## Claim C7 -/

theorem isPunct_not_space (c : Char) (h : isPunct c = true) :
    isPySpace c = false := by
  simp only [isPunct, Bool.or_eq_true, decide_eq_true_eq] at h
  rcases h with ((h | h) | h) | h <;> subst h <;> decide

theorem takeWhile_append_exists_not (p : Char → Bool) (x y : List Char)
    (hx : ∃ c ∈ x, p c = false) :
    (x ++ y).takeWhile p = x.takeWhile p := by
  induction x with
  | nil => simp at hx
  | cons a t ih =>
    by_cases ha : p a = true
    · simp only [List.cons_append, List.takeWhile_cons, ha, if_true]
      obtain ⟨c, hc, hpc⟩ := hx
      rcases List.mem_cons.mp hc with hc | hc
      · exact absurd (hc ▸ ha) (by simp [hpc])
      · rw [ih ⟨c, hc, hpc⟩]
    · have ha' : p a = false := by
        cases hpa : p a
        · rfl
        · exact absurd hpa ha
      simp [List.takeWhile_cons, ha']

theorem takeWhile_length_lt (p : Char → Bool) (x : List Char)
    (hx : ∃ c ∈ x, p c = false) :
    (x.takeWhile p).length < x.length := by
  induction x with
  | nil => simp at hx
  | cons a t ih =>
    by_cases ha : p a = true
    · simp only [List.takeWhile_cons, ha, if_true, List.length_cons]
      obtain ⟨c, hc, hpc⟩ := hx
      rcases List.mem_cons.mp hc with hc | hc
      · exact absurd (hc ▸ ha) (by simp [hpc])
      · exact Nat.succ_lt_succ (ih ⟨c, hc, hpc⟩)
    · have ha' : p a = false := by
        cases hpa : p a
        · rfl
        · exact absurd hpa ha
      simp [List.takeWhile_cons, ha']

/-- Claim C7 counterexample: on the heading `# ...`, whose content is
nothing but the punctuation run, the lazy `.+?` group must keep one
character, so `fix_markdown_errors` yields `# .` rather than stripping the
whole run to `# ` as the claim requires. -/
theorem c7_counterexample :
    fix_markdown_errors ("# ...".toList) = ("# .".toList) ∧
    ("# .".toList : Line) ≠ ("# ".toList : Line) := by
  refine ⟨by decide, by decide⟩

/-- Claim C7 amended: for a heading consisting of a `#` run, whitespace, a
content part that contains a non-whitespace character and does not end in
punctuation, a trailing punctuation run and trailing whitespace, the MD026
rule strips exactly the punctuation run, preserving the trailing
whitespace.  (When the content is empty or all punctuation the regex
instead keeps one extra character, as the counterexample shows.) -/
theorem c7_amended (hh ww cc pp tt : Line)
    (h1 : hh ≠ []) (h2 : ∀ c ∈ hh, c = '#')
    (h3 : ww ≠ []) (h4 : ∀ c ∈ ww, isPySpace c = true)
    (h5 : ∃ c ∈ cc, isPySpace c = false)
    (h6 : isPunct (cc.getLastD ' ') = false)
    (h7 : pp ≠ []) (h8 : ∀ c ∈ pp, isPunct c = true)
    (h9 : ∀ c ∈ tt, isPySpace c = true) :
    md026 (hh ++ (ww ++ (cc ++ (pp ++ tt)))) = hh ++ (ww ++ (cc ++ tt)) := by
  obtain ⟨h0, hh', hhh⟩ : ∃ h0 hh', hh = h0 :: hh' := by
    cases hh with
    | nil => exact absurd rfl h1
    | cons h0 hh' => exact ⟨h0, hh', rfl⟩
  obtain ⟨w0, ww', hww⟩ : ∃ w0 ww', ww = w0 :: ww' := by
    cases ww with
    | nil => exact absurd rfl h3
    | cons w0 ww' => exact ⟨w0, ww', rfl⟩
  have hcne : cc ≠ [] := by
    rintro rfl
    simp at h5
  have hpne : pp ≠ [] := h7
  set R : Line := ww ++ (cc ++ (pp ++ tt)) with hR
  set l : Line := hh ++ R with hl
  have hw0 : isPySpace w0 = true := h4 w0 (by simp [hww])
  have hw0h : ¬(w0 = '#') := by
    intro he
    rw [he] at hw0
    exact absurd hw0 (by decide)
  have hstart : startsWith ['#'] l = true := by
    simp only [startsWith, decide_eq_true_eq, hl, hhh]
    exact ⟨(hh' ++ R), by simp [h2 h0 (by simp [hhh])]⟩
  have htake : l.takeWhile (· = '#') = hh := by
    rw [hl, takeWhile_append_all _ hh R (by
      intro c hc
      simp [h2 c hc])]
    rw [hR, hww]
    simp [List.takeWhile_cons, hw0h]
  have hdrop : l.dropWhile (· = '#') = R := by
    rw [hl, dropWhile_append_all _ hh R (by
      intro c hc
      simp [h2 c hc])]
    rw [hR, hww]
    simp [List.dropWhile_cons, hw0h]
  have hwsfst : R.takeWhile isPySpace = ww ++ cc.takeWhile isPySpace := by
    rw [hR, takeWhile_append_all _ ww _ h4,
      takeWhile_append_exists_not _ cc _ h5]
  have haS : (R.takeWhile isPySpace).length =
      ww.length + (cc.takeWhile isPySpace).length := by
    rw [hwsfst]; simp
  have haSlt : (cc.takeWhile isPySpace).length < cc.length :=
    takeWhile_length_lt _ cc h5
  have hppr : ∃ p0 ppr, pp.reverse = p0 :: ppr := by
    cases hp : pp.reverse with
    | nil => exact absurd (List.reverse_eq_nil_iff.mp hp) hpne
    | cons p0 ppr => exact ⟨p0, ppr, rfl⟩
  obtain ⟨p0, ppr, hpr⟩ := hppr
  have hp0 : isPunct p0 = true := h8 p0 (by
    rw [← List.mem_reverse, hpr]; simp)
  have hrrev : R.reverse = tt.reverse ++ (pp.reverse ++ (cc.reverse ++ ww.reverse)) := by
    rw [hR]; simp
  have hrtw : R.reverse.takeWhile isPySpace = tt.reverse := by
    rw [hrrev, takeWhile_append_all _ _ _ (by
      intro c hc
      exact h9 c (List.mem_reverse.mp hc))]
    rw [hpr]
    simp [List.takeWhile_cons, isPunct_not_space p0 hp0]
  have hrdw : R.reverse.dropWhile isPySpace =
      pp.reverse ++ (cc.reverse ++ ww.reverse) := by
    rw [hrrev, dropWhile_append_all _ _ _ (by
      intro c hc
      exact h9 c (List.mem_reverse.mp hc))]
    rw [hpr]
    simp [List.dropWhile_cons, isPunct_not_space p0 hp0]
  have hM : rstrip R = ww ++ (cc ++ pp) := by
    rw [rstrip, hrdw]; simp
  have htS : (R.reverse.takeWhile isPySpace).reverse = tt := by
    rw [hrtw]; simp
  have hcrev : ∃ c0 ccr, cc.reverse = c0 :: ccr := by
    cases hc : cc.reverse with
    | nil => exact absurd (List.reverse_eq_nil_iff.mp hc) hcne
    | cons c0 ccr => exact ⟨c0, ccr, rfl⟩
  obtain ⟨c0, ccr, hcr⟩ := hcrev
  have hc0 : isPunct c0 = false := by
    have : cc.getLast? = some c0 := by
      rw [← List.head?_reverse, hcr]; rfl
    have hgl : cc.getLastD ' ' = c0 := by
      rw [List.getLastD_eq_getLast?, this]; rfl
    rw [← hgl]; exact h6
  have hMrev : (ww ++ (cc ++ pp)).reverse =
      pp.reverse ++ (cc.reverse ++ ww.reverse) := by simp
  have hpLen : ((ww ++ (cc ++ pp)).reverse.takeWhile isPunct).length =
      pp.length := by
    rw [hMrev, takeWhile_append_all _ _ _ (by
      intro c hc
      exact h8 c (List.mem_reverse.mp hc))]
    rw [hcr]
    simp [List.takeWhile_cons, hc0]
  have hMlen : (ww ++ (cc ++ pp)).length =
      ww.length + cc.length + pp.length := by simp; omega
  have htkR : ∀ n : Nat, n = ww.length + cc.length →
      R.take n = ww ++ cc := by
    intro n hn
    subst hn
    rw [hR, show ww ++ (cc ++ (pp ++ tt)) = (ww ++ cc) ++ (pp ++ tt) by simp,
      show ww.length + cc.length = (ww ++ cc).length by simp]
    exact List.take_left _ _
  have hwp : 1 ≤ ww.length := by rw [hww]; simp
  have hp1 : 1 ≤ pp.length := by
    cases pp with
    | nil => exact absurd rfl hpne
    | cons a b => simp
  unfold md026
  rw [hstart, if_pos rfl]
  simp only [htake, hdrop, hwsfst, hrtw, htS, hM, hpLen, hMlen,
    List.length_append]
  rw [if_neg (by omega)]
  rw [if_neg (by omega)]
  rw [if_pos (by omega)]
  rw [htkR _ (by
    have := haSlt
    simp [Nat.max_def]
    omega)]
  simp

/-- Claim C7 amended, witness: `## Section Title:` becomes
`## Section Title`. -/
theorem c7_witness :
    md026 (("##".toList) ++ ((" ".toList) ++ (("Section Title".toList) ++
      ((":".toList) ++ ([] : Line))))) =
    ("##".toList) ++ ((" ".toList) ++ (("Section Title".toList) ++ ([] : Line))) :=
  c7_amended ("##".toList) (" ".toList) ("Section Title".toList) (":".toList) []
    (by decide) (by decide) (by decide) (by decide) (by decide) (by decide)
    (by decide) (by decide) (by decide)

/-! ## Claim C8 -/

theorem dropWhile_head_false (p : Char → Bool) (l : List Char) (a : Char)
    (t : List Char) (h : l.dropWhile p = a :: t) : p a = false := by
  induction l with
  | nil => simp at h
  | cons c cs ih =>
    rw [List.dropWhile_cons] at h
    by_cases hc : p c = true
    · rw [if_pos hc] at h
      exact ih h
    · rw [if_neg hc] at h
      have : c = a := (List.cons.injEq _ _ _ _ ▸ h).1
      subst this
      cases hpc : p c
      · rfl
      · exact absurd hpc hc

theorem rstripNl_no_nl_suffix (s : List Char) : ¬ (['\n'] <:+ rstripNl s) := by
  intro ⟨r, hr⟩
  unfold rstripNl at hr
  have h2 : (s.reverse.dropWhile (· = '\n')) = '\n' :: r.reverse := by
    have h3 := congrArg List.reverse hr
    simp at h3
    exact h3.symm
  have := dropWhile_head_false _ _ _ _ h2
  simp at this

/-- Claim C8: for every input, the output of `fix_markdown_complete` ends
in exactly one newline: it ends with `'\n'` and does not end with two
newlines (all trailing newline characters are first removed, then a single
one appended). -/
theorem c8 (content : List Char) :
    endsWith ['\n'] (fix_markdown_complete content) = true ∧
    endsWith ['\n', '\n'] (fix_markdown_complete content) = false := by
  unfold fix_markdown_complete
  constructor
  · simp only [endsWith, decide_eq_true_eq]
    exact ⟨_, rfl⟩
  · simp only [endsWith, decide_eq_false_iff_not]
    intro ⟨r, hr⟩
    apply rstripNl_no_nl_suffix (collapseNl (joinSep '\n'
      (pass2 ((splitSep '\n' content).map pass1Line))))
    refine ⟨r, ?_⟩
    have h3 : (r ++ ['\n']) ++ ['\n'] = rstripNl (collapseNl (joinSep '\n'
        (pass2 ((splitSep '\n' content).map pass1Line)))) ++ ['\n'] := by
      simpa using hr
    exact List.append_cancel_right h3

/-! ## Claim C9 -/

theorem collapseGo_no_nl (s : List Char) (hs : '\n' ∉ s) :
    collapseGo 0 s = s := by
  induction s with
  | nil => rfl
  | cons c cs ih =>
    have hc : ¬(c = '\n') := fun e => hs (e ▸ List.mem_cons_self c cs)
    rw [collapseGo, if_neg hc]
    simp [ih (fun e => hs (List.mem_cons_of_mem c e))]

theorem rstripNl_no_nl (l : List Char) (h : '\n' ∉ l) : rstripNl l = l := by
  unfold rstripNl
  rw [dropWhile_all_false _ _ (by
    intro c hc
    simp only [decide_eq_false_iff_not]
    intro he
    exact h (he ▸ List.mem_reverse.mp hc))]
  simp

theorem isBlank_nil : isBlank [] = true := by decide

theorem beforeBlanks_blank_prev (prev l : Line) (h : isBlank prev = true) :
    beforeBlanks prev l = [] := by
  simp [beforeBlanks, h]

theorem afterBlanks_blank_next (l next : Line) (h : isBlank next = true) :
    afterBlanks l next = [] := by
  simp [afterBlanks, h]

theorem contains_eq_false (l : Line) (c : Char) (h : c ∉ l) :
    l.contains c = false := by
  cases hc : l.contains c
  · rfl
  · exact absurd (by simpa using hc) h

theorem sepShape_false_of_no_pipe (l : Line) (h : '|' ∉ l) :
    sepShape l = false := by
  cases hs : sepShape l
  · rfl
  · obtain ⟨rest, hrest⟩ := sepShape_head l hs
    exact absurd (hrest ▸ List.mem_cons_self '|' rest) h

theorem pass1Line_id_of_plain (l : Line) (h2 : btk ∉ l) (h4 : '|' ∉ l) :
    pass1Line l = l := by
  have hstr : ¬(strip l = "```".toList) := by
    intro he
    have : btk ∈ strip l := by
      rw [he]; decide
    exact h2 (strip_sub l btk this)
  unfold pass1Line
  rw [if_neg (by simp [sepShape_false_of_no_pipe l h4])]
  simp only [if_neg hstr]

/-- Claim C9: both fixers are total functions of the embedding, and a line
matching none of the rewrite rules is passed through unchanged:
`fix_markdown_errors` returns it verbatim and `fix_markdown_complete`
returns it with the single terminating newline appended. -/
theorem c9 (l : Line) (h1 : '\n' ∉ l) (h2 : btk ∉ l) (h3 : '*' ∉ l)
    (h4 : '|' ∉ l) (h5 : startsWith ['#'] l = false)
    (h6 : md007Hit l = false) (h7 : endsWith [' '] l = false) :
    fix_markdown_errors l = l ∧ fix_markdown_complete l = l ++ ['\n'] := by
  have hsplit : splitSep '\n' l = [l] := splitSep_sepFree '\n' l h1
  have hfence : isFence l = false := by
    cases hf : isFence l
    · rfl
    · exfalso
      simp only [isFence, startsWith, decide_eq_true_eq] at hf
      have : btk ∈ strip l := hf.subset (by decide)
      exact h2 (strip_sub l btk this)
  have hfix : fixErrLine l = l := by
    unfold fixErrLine
    rw [show md026 l = l by
      unfold md026
      rw [if_neg (by simp [h5])]]
    rw [show md007 l = l by simp [md007, h6]]
    rw [show md009 l = l by simp [md009, h7]]
    rw [show md037 l = l from md037Go_no_star l h3 _]
    rw [show md060e l = l by
      unfold md060e
      rw [contains_eq_false l '|' h4]
      rfl]
  constructor
  · unfold fix_markdown_errors
    rw [hsplit]
    unfold fmeGo
    rw [hfence]
    simp only [Bool.false_eq_true, if_false, hfix]
    rfl
  · unfold fix_markdown_complete
    rw [hsplit]
    rw [show ([l].map pass1Line) = [l] by
      simp [pass1Line_id_of_plain l h2 h4]]
    rw [show pass2 [l] = [l] by
      unfold pass2 pass2Go pass2Block
      simp only [List.headD_nil]
      rw [beforeBlanks_blank_prev [] l isBlank_nil,
        afterBlanks_blank_next l [] isBlank_nil]
      rfl]
    rw [show joinSep '\n' [l] = l from rfl]
    rw [show collapseNl l = l from collapseGo_no_nl l h1]
    rw [rstripNl_no_nl l h1]

/-- Claim C9 witness at the plain line `hello`. -/
theorem c9_witness :
    fix_markdown_errors ("hello".toList) = ("hello".toList) ∧
    fix_markdown_complete ("hello".toList) = ("hello".toList) ++ ['\n'] :=
  c9 ("hello".toList) (by decide) (by decide) (by decide) (by decide)
    (by decide) (by decide) (by decide)
/-! ## Claim C10 -/

theorem md026_sub (l : Line) (c : Char) (hc : c ∈ md026 l) : c ∈ l := by
  unfold md026 at hc
  dsimp only [] at hc
  split_ifs at hc <;> try exact hc
  all_goals {
    rcases List.mem_append.mp hc with hc1 | hc1
    · rcases List.mem_append.mp hc1 with hc2 | hc2
      · exact (List.takeWhile_prefix _).subset hc2
      · exact (List.dropWhile_suffix _).subset (List.take_subset _ _ hc2)
    · have h1 : c ∈ (l.dropWhile (· = '#')).reverse.takeWhile isPySpace :=
        List.mem_reverse.mp hc1
      have h2 : c ∈ (l.dropWhile (· = '#')).reverse :=
        (List.takeWhile_prefix _).subset h1
      exact (List.dropWhile_suffix _).subset (List.mem_reverse.mp h2)
  }

theorem md007_sub (l : Line) (c : Char) (hc : c ∈ md007 l) :
    c ∈ l ∨ c = ' ' := by
  unfold md007 at hc
  split_ifs at hc
  · rcases List.mem_cons.mp hc with hc1 | hc1
    · exact Or.inr hc1
    · rcases List.mem_cons.mp hc1 with hc2 | hc2
      · exact Or.inr hc2
      · exact Or.inl (List.drop_subset _ _ hc2)
  · exact Or.inl hc

theorem md009_sub (l : Line) (c : Char) (hc : c ∈ md009 l) : c ∈ l := by
  unfold md009 at hc
  split_ifs at hc
  · exact rstrip_sub l c hc
  · exact hc

theorem starMatch_sub (rest g v : List Char)
    (h : starMatch rest = some (g, v)) :
    (∀ c ∈ g, c ∈ rest) ∧ (∀ c ∈ v, c ∈ rest) := by
  rcases hd : rest.dropWhile (· ≠ '*') with _ | ⟨x, v'⟩ <;>
    (unfold starMatch at h; rw [hd] at h; dsimp only [] at h)
  · split_ifs at h <;> simp at h
  · split_ifs at h with h1 h2 <;> try simp at h
    all_goals {
      obtain ⟨hg, hv⟩ := h
      constructor
      · intro c hcg
        rw [← hg] at hcg
        exact (List.takeWhile_prefix _).subset
          (List.drop_subset _ _ (List.take_subset _ _ hcg))
      · intro c hcv
        rw [← hv] at hcv
        have hmem : c ∈ rest.dropWhile (· ≠ '*') := by
          rw [hd]
          exact List.mem_cons_of_mem x hcv
        exact (List.dropWhile_suffix _).subset hmem }

theorem md037Go_sub (f : Nat) (s : List Char) (c : Char)
    (hc : c ∈ md037Go f s) : c ∈ s ∨ c = '*' := by
  induction f generalizing s with
  | zero =>
    rw [show md037Go 0 s = s from by cases s <;> rfl] at hc
    exact Or.inl hc
  | succ f ih =>
    cases s with
    | nil =>
      rw [md037Go_nil] at hc
      simp at hc
    | cons a rest =>
      by_cases ha : a = '*'
      · subst ha
        cases hsm : starMatch rest with
        | none =>
          rw [md037Go_cons_star_none _ _ hsm] at hc
          rcases List.mem_cons.mp hc with hc1 | hc1
          · exact Or.inr hc1
          · rcases ih _ hc1 with h | h
            · exact Or.inl (List.mem_cons_of_mem _ h)
            · exact Or.inr h
        | some gv =>
          rw [md037Go_cons_star_some _ _ gv.1 gv.2 (by rw [hsm])] at hc
          have hsub := starMatch_sub rest gv.1 gv.2 (by rw [hsm])
          rcases List.mem_cons.mp hc with hc1 | hc1
          · exact Or.inr hc1
          · rcases List.mem_append.mp hc1 with hc2 | hc2
            · exact Or.inl (List.mem_cons_of_mem _ (hsub.1 c hc2))
            · rcases List.mem_cons.mp hc2 with hc3 | hc3
              · exact Or.inr hc3
              · rcases ih _ hc3 with h | h
                · exact Or.inl (List.mem_cons_of_mem _ (hsub.2 c h))
                · exact Or.inr h
      · simp only [md037Go, if_neg ha] at hc
        rcases List.mem_cons.mp hc with hc1 | hc1
        · exact Or.inl (hc1 ▸ List.mem_cons_self a rest)
        · rcases ih _ hc1 with h | h
          · exact Or.inl (List.mem_cons_of_mem _ h)
          · exact Or.inr h

theorem md060e_sub (l : Line) (c : Char) (hc : c ∈ md060e l) :
    c ∈ l ∨ c = '|' := by
  unfold md060e at hc
  split_ifs at hc
  · rcases mem_joinSep '|' _ c hc with h | ⟨part, hpart, hcp⟩
    · exact Or.inr h
    · rcases mem_mapInterior strip _ part hpart with h | ⟨p, hp, he⟩
      · exact Or.inl (mem_splitSep_chars '|' l part c h hcp)
      · subst he
        exact Or.inl (mem_splitSep_chars '|' l p c hp (strip_sub p c hcp))
  · exact Or.inl hc

theorem fixErrLine_no_nl (l : Line) (h : '\n' ∉ l) : '\n' ∉ fixErrLine l := by
  intro hmem
  unfold fixErrLine at hmem
  rcases md060e_sub _ _ hmem with h1 | h1
  on_goal 2 => exact absurd h1 (by decide)
  rcases md037Go_sub _ _ _ h1 with h2 | h2
  on_goal 2 => exact absurd h2 (by decide)
  have h3 := md009_sub _ _ h2
  rcases md007_sub _ _ h3 with h4 | h4
  on_goal 2 => exact absurd h4 (by decide)
  exact h (md026_sub _ _ h4)

theorem fmeGo_length (b : Bool) (ls : List Line) :
    (fmeGo b ls).length = ls.length := by
  induction ls generalizing b with
  | nil => rfl
  | cons l ls ih =>
    unfold fmeGo
    split_ifs <;> simp [ih]

theorem fmeGo_mem (b : Bool) (ls : List Line) (x : Line)
    (hx : x ∈ fmeGo b ls) : x ∈ ls ∨ ∃ l ∈ ls, x = fixErrLine l := by
  induction ls generalizing b with
  | nil => simp [fmeGo] at hx
  | cons l ls ih =>
    unfold fmeGo at hx
    split_ifs at hx <;>
      rcases List.mem_cons.mp hx with h1 | h1 <;>
      first
      | exact Or.inl (by rw [h1]; exact List.mem_cons_self l ls)
      | exact Or.inr ⟨l, List.mem_cons_self l ls, h1⟩
      | (rcases ih _ h1 with h2 | ⟨m, hm, he⟩
         · exact Or.inl (List.mem_cons_of_mem l h2)
         · exact Or.inr ⟨m, List.mem_cons_of_mem l hm, he⟩)

/-- The line list of the `fix_markdown_errors` output is exactly the
processed line list (the joined lines contain no newline and the list is
nonempty, so splitting is a left inverse of joining). -/
theorem fme_lines (content : List Char) :
    splitSep '\n' (fix_markdown_errors content) =
      fmeGo false (splitSep '\n' content) := by
  unfold fix_markdown_errors
  apply splitSep_joinSep
  · intro he
    have := congrArg List.length he
    rw [fmeGo_length] at this
    simp [splitSep] at this
  · intro x hx
    rcases fmeGo_mem _ _ x hx with h | ⟨l, hl, he⟩
    · exact mem_splitSep_sepFree '\n' content x h
    · subst he
      exact fixErrLine_no_nl l (mem_splitSep_sepFree '\n' content l hl)

/-- Claim C10: `fix_markdown_errors` preserves the number of lines: every
line is rewritten in place and none is inserted or deleted. -/
theorem c10 (content : List Char) :
    (splitSep '\n' (fix_markdown_errors content)).length =
      (splitSep '\n' content).length := by
  rw [fme_lines]
  exact fmeGo_length false _

/-! ## Claim C1 -/

theorem fmeGo_get_inside (ls : List Line) (b : Bool) (i : Nat) (l : Line)
    (hl : ls.get? i = some l) (hs : stateAt b ls i = true)
    (hnf : isFence l = false) : (fmeGo b ls).get? i = some l := by
  induction ls generalizing b i with
  | nil => simp at hl
  | cons x xs ih =>
    cases i with
    | zero =>
      have hx : x = l := by simpa using hl
      subst hx
      have hb : b = true := hs
      subst hb
      unfold fmeGo
      rw [hnf]
      simp
    | succ n =>
      have hl' : xs.get? n = some l := hl
      have hs' : stateAt (if isFence x then !b else b) xs n = true := hs
      by_cases hf : isFence x = true
      · unfold fmeGo
        rw [hf]
        simp only [if_true]
        rw [hf] at hs'
        exact ih (!b) n hl' (by simpa using hs')
      · have hf' : isFence x = false := by
          cases hxf : isFence x
          · rfl
          · exact absurd hxf hf
        rw [hf'] at hs'
        simp only [Bool.false_eq_true, if_false] at hs'
        unfold fmeGo
        rw [hf']
        by_cases hbv : b = true
        · subst hbv
          simp only [Bool.false_eq_true, if_false, if_true]
          exact ih true n hl' (by simpa using hs')
        · have hbf : b = false := by
            cases b
            · rfl
            · exact absurd rfl hbv
          subst hbf
          simp only [Bool.false_eq_true, if_false]
          exact ih false n hl' (by simpa using hs')

/-- Claim C1 counterexample: in `fix_markdown_complete`, the line `|---|`
of the input ```` ```q\n|---|\n``` ```` lies strictly inside the code fence
(fence state open before it, and it is not a delimiter), yet it is emitted
nowhere byte-identical in the output: the table-separator rewrite and the
blank-line insertion both fire inside the fence. -/
theorem c1_counterexample :
    stateAt false (splitSep '\n' ("```q\n|---|\n```".toList)) 1 = true ∧
    (splitSep '\n' ("```q\n|---|\n```".toList)).get? 1 =
      some ("|---|".toList) ∧
    isFence ("|---|".toList) = false ∧
    ("|---|".toList) ∉
      splitSep '\n' (fix_markdown_complete ("```q\n|---|\n```".toList)) := by
  refine ⟨by decide, by decide, by decide, by decide⟩

/-- Claim C1 amended: in `fix_markdown_errors`, every line strictly inside
a code fence (open fence state before it, not itself a delimiter) is
emitted byte-identical at the same line index. -/
theorem c1_amended (content : List Char) (i : Nat) (l : Line)
    (hl : (splitSep '\n' content).get? i = some l)
    (hin : stateAt false (splitSep '\n' content) i = true)
    (hnf : isFence l = false) :
    (splitSep '\n' (fix_markdown_errors content)).get? i = some l := by
  rw [fme_lines]
  exact fmeGo_get_inside _ false i l hl hin hnf

/-- Claim C1 amended, witness: the separator-shaped line inside a fence is
preserved by `fix_markdown_errors`. -/
theorem c1_witness :
    (splitSep '\n' (fix_markdown_errors ("```\n|---|\n```".toList))).get? 1 =
      some ("|---|".toList) :=
  c1_amended ("```\n|---|\n```".toList) 1 ("|---|".toList) (by decide)
    (by decide) (by decide)

/-! ## Claim C6 -/

theorem isHeading_shape (l : Line) (h : isHeading l = true) :
    ∃ c rest, l = '#' :: c :: rest := by
  cases l with
  | nil => exact absurd h (by decide)
  | cons a t =>
    cases t with
    | nil => exact absurd h (by simp [isHeading])
    | cons c rest =>
      simp only [isHeading, Bool.and_eq_true, decide_eq_true_eq] at h
      exact ⟨c, rest, by rw [h.1]⟩

theorem isHeading_not_list (l : Line) (h : isHeading l = true) :
    isListLine l = false := by
  obtain ⟨c, rest, he⟩ := isHeading_shape l h
  subst he
  simp [isListLine, List.dropWhile_cons, List.takeWhile_cons,
    show isPySpace '#' = false from by decide,
    show ('#'.isDigit) = false from by decide]

theorem isHeading_not_fence (l : Line) (h : isHeading l = true) :
    isFence l = false := by
  obtain ⟨c, rest, he⟩ := isHeading_shape l h
  subst he
  have hstrip : strip ('#' :: c :: rest) = '#' :: rstrip (c :: rest) :=
    strip_cons '#' (c :: rest) (by decide)
  unfold isFence
  rw [hstrip]
  simp only [startsWith]
  apply decide_eq_false
  intro ⟨s, hs⟩
  rw [show ("```".toList : List Char) = btk :: btk :: btk :: [] from rfl] at hs
  have h0 : btk = '#' := by
    have := congrArg (fun t => t.headD ' ') hs
    simpa using this
  exact absurd h0 (by decide)

/-- Modelled from the claim's words: the lines emitted for a heading line —
a blank line before it unless the preceding line is blank or a heading (the
start of the document is the blank preceding line `[]`), the heading, and a
blank line after it unless the following line is blank or a heading (an
absent following line is `[]`). -/
def c6HeadingBlock (prev l next : Line) : List Line :=
  (if !isBlank prev && !isHeading prev then [[]] else []) ++
    l :: (if !isBlank next && !isHeading next then [[]] else [])

/-- The list/code-fence insertion rules alone (the heading rule removed),
used to state that non-heading lines receive no heading insertion. -/
def c6OtherBlock (prev l next : Line) : List Line :=
  ((if isListLine l && !isBlank prev && !isListLine prev && !isHeading prev &&
      !isFence prev && strip prev ≠ []
    then [[]] else []) ++
   (if isFence l && !isBlank prev && !isHeading prev && strip prev ≠ []
    then [[]] else [])) ++
  l :: ((if isListLine l && !isBlank next && !isListLine next &&
      !isHeading next && strip next ≠ []
    then [[]] else []) ++
   (if isFence l && !isBlank next && !isHeading next && strip next ≠ []
    then [[]] else []))

theorem decide_strip_ne (p : Line) : decide (strip p ≠ []) = !isBlank p := by
  simp [isBlank]

/-- Claim C6: the blank-line insertion of `fix_markdown_complete` treats a
heading line exactly as the claim states (blank before iff the preceding
original line is neither blank nor a heading, blank after iff the following
original line is neither blank nor a heading, with document edges counting
as blank), and a non-heading line never triggers the heading insertion:
its block consists of the list/fence rules alone. -/
theorem c6 (prev l next : Line) :
    (isHeading l = true →
      pass2Block prev l next = c6HeadingBlock prev l next) ∧
    (isHeading l = false →
      pass2Block prev l next = c6OtherBlock prev l next) := by
  constructor
  · intro h
    have hnl := isHeading_not_list l h
    have hnf := isHeading_not_fence l h
    unfold pass2Block beforeBlanks afterBlanks c6HeadingBlock
    rw [h, hnl, hnf, decide_strip_ne prev, decide_strip_ne next]
    cases hbp : isBlank prev <;> cases hhp : isHeading prev <;>
      cases hbn : isBlank next <;> cases hhn : isHeading next <;> simp
  · intro h
    unfold pass2Block beforeBlanks afterBlanks c6OtherBlock
    rw [h]
    simp

/-- Claim C6 witness: a heading between two plain text lines gets a blank
line on both sides, and a plain line between plain lines gets none. -/
theorem c6_witness :
    pass2Block ("text".toList) ("# h".toList) ("more".toList) =
      c6HeadingBlock ("text".toList) ("# h".toList) ("more".toList) ∧
    pass2Block ("a".toList) ("b".toList) ("c".toList) =
      c6OtherBlock ("a".toList) ("b".toList) ("c".toList) :=
  ⟨(c6 ("text".toList) ("# h".toList) ("more".toList)).1 (by decide),
   (c6 ("a".toList) ("b".toList) ("c".toList)).2 (by decide)⟩

/-! ## Claim C2

The counterexample is the emphasis rewrite of `fix_markdown_errors`; the
amended claim is that `fix_markdown_complete` is idempotent, proved below
through a line-level analysis of its three passes. -/

theorem rstrip_isPrefix (l : Line) : rstrip l <+: l := by
  have h := List.dropWhile_suffix (l := l.reverse) (p := isPySpace)
  rw [rstrip]
  obtain ⟨r, hr⟩ := h
  exact ⟨r.reverse, by
    have := congrArg List.reverse hr
    simpa using this⟩

theorem strip_head_not_ws (p : Line) (c : Char) (r : Line)
    (h : strip p = c :: r) : isPySpace c = false := by
  have hpre := rstrip_isPrefix (lstrip p)
  rw [show strip p = rstrip (lstrip p) from rfl] at h
  rw [h] at hpre
  obtain ⟨s, hs⟩ := hpre
  have hd : p.dropWhile isPySpace = c :: (r ++ s) := by
    rw [show p.dropWhile isPySpace = lstrip p from rfl, ← hs]
    simp
  exact dropWhile_head_false _ _ _ _ hd

theorem rstrip_rev_eq (l : Line) :
    (rstrip l).reverse = l.reverse.dropWhile isPySpace := by
  simp [rstrip]

theorem strip_last_not_ws (p : Line) (c : Char) (r : Line)
    (h : (strip p).reverse = c :: r) : isPySpace c = false := by
  unfold strip at h
  rw [rstrip_rev_eq] at h
  exact dropWhile_head_false _ _ _ _ h

theorem removeSpaces_idem (l : Line) :
    removeSpaces (removeSpaces l) = removeSpaces l := by
  unfold removeSpaces
  rw [List.filter_filter]
  simp

theorem removeSpaces_reverse (l : Line) :
    (removeSpaces l).reverse = removeSpaces l.reverse := by
  simp [removeSpaces, List.filter_reverse]

theorem rstrip_eq_self_of_rev_head (l : Line)
    (h : ∀ c r, l.reverse = c :: r → isPySpace c = false) : rstrip l = l := by
  rcases hr : l.reverse with _ | ⟨c, r⟩
  · have : l = [] := by simpa using congrArg List.reverse hr
    subst this
    rfl
  · unfold rstrip
    rw [hr, List.dropWhile_cons, if_neg (by simp [h c r hr])]
    rw [← hr]
    simp

theorem sepCell_strip (p : Line) :
    strip (sepCell p) = removeSpaces (strip p) := by
  rcases hsp : strip p with _ | ⟨s0, s'⟩
  · rw [show sepCell p = ' ' :: (removeSpaces (strip p) ++ [' ']) from rfl, hsp]
    decide
  · have hs0 : isPySpace s0 = false := strip_head_not_ws p s0 s' hsp
    have hs0' : ¬(s0 = ' ') := by
      intro he
      rw [he] at hs0
      exact absurd hs0 (by decide)
    have hX : removeSpaces (strip p) = s0 :: removeSpaces s' := by
      rw [hsp]
      simp [removeSpaces, hs0']
    rcases hrev : (strip p).reverse with _ | ⟨t0, t'⟩
    · exact absurd (by simpa using congrArg List.reverse hrev)
        (by rw [hsp]; simp)
    · have ht0 : isPySpace t0 = false := strip_last_not_ws p t0 t' hrev
      have ht0' : ¬(t0 = ' ') := by
        intro he
        rw [he] at ht0
        exact absurd ht0 (by decide)
      have hXrev : (removeSpaces (strip p)).reverse = t0 :: removeSpaces t' := by
        rw [removeSpaces_reverse, hrev]
        simp [removeSpaces, ht0']
      rw [show sepCell p = ' ' :: (removeSpaces (strip p) ++ [' ']) from rfl]
      rw [show strip (' ' :: (removeSpaces (strip p) ++ [' '])) =
          rstrip ((' ' :: (removeSpaces (strip p) ++ [' '])).dropWhile isPySpace)
          from rfl]
      rw [List.dropWhile_cons, if_pos (by decide)]
      rw [show (removeSpaces (strip p) ++ [' ']).dropWhile isPySpace =
          removeSpaces (strip p) ++ [' '] from by
        rw [hX]
        simp [List.dropWhile_cons, hs0]]
      rw [rstrip]
      rw [show (removeSpaces (strip p) ++ [' ']).reverse =
          ' ' :: (removeSpaces (strip p)).reverse from by simp]
      rw [List.dropWhile_cons, if_pos (by decide)]
      rw [hXrev, List.dropWhile_cons, if_neg (by simp [ht0]), ← hXrev]
      simp
      rw [hsp]

theorem sepCell_idem (p : Line) : sepCell (sepCell p) = sepCell p := by
  rw [show sepCell (sepCell p) =
      ' ' :: (removeSpaces (strip (sepCell p)) ++ [' ']) from rfl]
  rw [sepCell_strip, removeSpaces_idem]
  rfl

/-- The character class of a separator row interior. -/
def sepClass (c : Char) : Prop := c = '-' ∨ c = ':' ∨ c = '|' ∨ c = ' '

theorem sepShape_decomp (l : Line) (h : sepShape l = true) :
    ∃ w, l = '|' :: (w ++ ['|']) ∧ ∀ c ∈ w, sepClass c := by
  cases l with
  | nil => exact absurd h (by decide)
  | cons a t =>
    simp only [sepShape, Bool.and_eq_true, decide_eq_true_eq,
      List.all_eq_true] at h
    obtain ⟨⟨⟨hlen, hhd⟩, hlast⟩, hcls⟩ := h
    have ha : a = '|' := by simpa using hhd
    subst ha
    have htne : t ≠ [] := by
      intro he
      rw [he] at hlen
      simp at hlen
    obtain ⟨w, b, hwb⟩ : ∃ w b, t = w ++ [b] := by
      rcases t.eq_nil_or_concat with he | ⟨w, b, hwb⟩
      · exact absurd he htne
      · exact ⟨w, b, by simpa [List.concat_eq_append] using hwb⟩
    have hb : b = '|' := by
      rw [hwb] at hlast
      rw [List.getLastD_cons] at hlast
      rw [show (w ++ [b]).getLastD '|' = b from by
        rw [List.getLastD_eq_getLast?, List.getLast?_concat]; rfl] at hlast
      simpa using hlast
    subst hb
    refine ⟨w, by rw [hwb], ?_⟩
    intro c hc
    have := hcls c (by
      rw [show ('|' :: t).drop 1 = t from rfl, hwb]
      rw [List.dropLast_concat]
      exact hc)
    simp only [Bool.or_eq_true, decide_eq_true_eq] at this
    simp only [sepClass]
    tauto

theorem splitSep_cons_sep (c : Char) (x : List Char) :
    splitSep c (c :: x) = [] :: splitSep c x := by
  simp [splitSep, splitSepA]

theorem mapInteriorLast_append_last (f : Line → Line) (ps : List Line)
    (q : Line) : mapInteriorLast f (ps ++ [q]) = ps.map f ++ [q] := by
  induction ps with
  | nil => rfl
  | cons p ps ih =>
    cases ps with
    | nil => rfl
    | cons r rs =>
      rw [show (p :: r :: rs) ++ [q] = p :: ((r :: rs) ++ [q]) from rfl]
      rw [show mapInteriorLast f (p :: ((r :: rs) ++ [q])) =
        f p :: mapInteriorLast f ((r :: rs) ++ [q]) from rfl]
      rw [ih]
      simp

theorem mapInterior_cons_ne (f : Line → Line) (p : Line) (ps : List Line)
    (h : ps ≠ []) : mapInterior f (p :: ps) = p :: mapInteriorLast f ps := by
  cases ps with
  | nil => exact absurd rfl h
  | cons q qs => rfl

theorem joinSep_append_last (c : Char) (xs : List Line) (q : Line)
    (h : xs ≠ []) : joinSep c (xs ++ [q]) = joinSep c xs ++ c :: q := by
  induction xs with
  | nil => exact absurd rfl h
  | cons x xs ih =>
    cases xs with
    | nil => rfl
    | cons y ys =>
      rw [show (x :: y :: ys) ++ [q] = x :: ((y :: ys) ++ [q]) from rfl,
        joinSep_cons _ _ _ (by simp), joinSep_cons _ _ _ (by simp),
        ih (by simp)]
      simp

theorem splitSep_ne_nil (c : Char) (s : List Char) : splitSep c s ≠ [] := by
  simp [splitSep]

theorem pipe_not_mem_sepCell (p : Line) (h : '|' ∉ p) : '|' ∉ sepCell p := by
  intro hm
  rcases List.mem_cons.mp hm with hm | hm
  · exact absurd hm.symm (by decide)
  · rcases List.mem_append.mp hm with hm | hm
    · exact h (strip_sub p '|' (List.mem_of_mem_filter hm))
    · exact absurd (List.mem_singleton.mp hm).symm (by decide)

/-- The separator-row rewrite of `fix_markdown_complete`'s first pass, on a
row `'|' :: (w ++ ['|'])`, produces `'|' :: (J ++ ['|'])` with
`J = joinSep '|' ((splitSep '|' w).map sepCell)`. -/
theorem sepRewrite_shape (w : Line) :
    joinSep '|' (mapInterior sepCell (splitSep '|' ('|' :: (w ++ ['|'])))) =
      '|' :: (joinSep '|' ((splitSep '|' w).map sepCell) ++ ['|']) := by
  rw [splitSep_cons_sep, splitSep_append_sep]
  rw [mapInterior_cons_ne _ _ _ (by simp)]
  rw [mapInteriorLast_append_last]
  rw [joinSep_cons _ _ _ (by simp)]
  rw [joinSep_append_last _ _ _ (by
    intro he
    have := congrArg List.length he
    rw [List.length_map] at this
    exact splitSep_ne_nil '|' w (List.length_eq_zero.mp (by simpa using this)))]
  rfl

theorem sepCell_chars (p : Line) (c : Char) (hc : c ∈ sepCell p) :
    c = ' ' ∨ c ∈ p := by
  rcases List.mem_cons.mp hc with h | h
  · exact Or.inl h
  · rcases List.mem_append.mp h with h | h
    · exact Or.inr (strip_sub p c (List.mem_of_mem_filter h))
    · exact Or.inl (List.mem_singleton.mp h)

theorem joinSep_map_sepCell_ne_nil (ps : List Line) (h : ps ≠ []) :
    joinSep '|' (ps.map sepCell) ≠ [] := by
  cases ps with
  | nil => exact absurd rfl h
  | cons p qs =>
    cases qs with
    | nil =>
      intro he
      simp [joinSep, sepCell] at he
    | cons q rs =>
      rw [List.map_cons, joinSep_cons _ _ _ (by simp)]
      intro he
      simp [sepCell] at he

theorem sepShape_of_rewrite (w : Line) (hw : ∀ c ∈ w, sepClass c) :
    sepShape ('|' :: (joinSep '|' ((splitSep '|' w).map sepCell) ++ ['|'])) =
      true := by
  set J := joinSep '|' ((splitSep '|' w).map sepCell) with hJ
  have hJne : J ≠ [] := joinSep_map_sepCell_ne_nil _ (splitSep_ne_nil '|' w)
  have hJcls : ∀ c ∈ J, sepClass c := by
    intro c hc
    rcases mem_joinSep '|' _ c hc with h | ⟨x, hx, hcx⟩
    · exact h ▸ (by simp [sepClass])
    · obtain ⟨p, hp, he⟩ := List.mem_map.mp hx
      subst he
      rcases sepCell_chars p c hcx with h | h
      · exact h ▸ (by simp [sepClass])
      · exact hw c (mem_splitSep_chars '|' w p c hp h)
  simp only [sepShape, Bool.and_eq_true, decide_eq_true_eq]
  refine ⟨⟨⟨?_, rfl⟩, ?_⟩, ?_⟩
  · rcases hj : J with _ | ⟨a, t⟩
    · exact absurd hj hJne
    · simp
  · rw [List.getLastD_cons, List.getLastD_eq_getLast?, List.getLast?_concat]
    rfl
  · rw [List.all_eq_true]
    intro c hc
    rw [show ('|' :: (J ++ ['|'])).drop 1 = J ++ ['|'] from rfl,
      List.dropLast_concat] at hc
    have := hJcls c hc
    simp only [sepClass] at this
    simp only [Bool.or_eq_true, decide_eq_true_eq]
    tauto

theorem pipe_not_mem_splitSep_cell (w : Line) (p : Line)
    (hp : p ∈ splitSep '|' w) : '|' ∉ sepCell p :=
  pipe_not_mem_sepCell p (mem_splitSep_sepFree '|' w p hp)

theorem pass1Line_sep (l : Line) (hsep : sepShape l = true) :
    pass1Line l = joinSep '|' (mapInterior sepCell (splitSep '|' l)) := by
  simp [pass1Line, hsep]

theorem pass1Line_idem (l : Line) :
    pass1Line (pass1Line l) = pass1Line l := by
  by_cases hsep : sepShape l = true
  · obtain ⟨w, hl, hw⟩ := sepShape_decomp l hsep
    subst hl
    rw [pass1Line_sep _ hsep, sepRewrite_shape]
    set ps := splitSep '|' w with hps
    set J := joinSep '|' (ps.map sepCell) with hJ
    have hsout : sepShape ('|' :: (J ++ ['|'])) = true :=
      sepShape_of_rewrite w hw
    rw [pass1Line_sep _ hsout]
    rw [splitSep_cons_sep, splitSep_append_sep]
    rw [hJ, splitSep_joinSep '|' (ps.map sepCell)
      (by
        intro he
        exact splitSep_ne_nil '|' w (by
          have := congrArg List.length he
          rw [List.length_map] at this
          exact List.length_eq_zero.mp (by simpa using this)))
      (by
        intro x hx
        obtain ⟨p, hp, he⟩ := List.mem_map.mp hx
        subst he
        exact pipe_not_mem_splitSep_cell w p hp)]
    rw [mapInterior_cons_ne _ _ _ (by simp)]
    rw [mapInteriorLast_append_last]
    rw [show (ps.map sepCell).map sepCell = ps.map sepCell from by
      rw [List.map_map]
      exact List.map_congr_left (fun p _ => sepCell_idem p)]
    rw [joinSep_cons _ _ _ (by simp)]
    rw [joinSep_append_last _ _ _ (by
      intro he
      exact splitSep_ne_nil '|' w (by
        have := congrArg List.length he
        rw [List.length_map] at this
        exact List.length_eq_zero.mp (by simpa using this)))]
    rfl
  · by_cases hstr : strip l = "```".toList
    · have h1 : pass1Line l = "```text".toList := by
        unfold pass1Line
        rw [if_neg (by simp [hsep]), if_pos hstr]
      rw [h1]
      decide
    · have h1 : pass1Line l = l := by
        unfold pass1Line
        rw [if_neg (by simp [hsep]), if_neg hstr]
      rw [h1, h1]

theorem pass1Line_nil : pass1Line [] = [] := by decide

theorem strip_cons_ws (a : Char) (t : Line) (ha : isPySpace a = true) :
    strip (a :: t) = strip t := by
  unfold strip lstrip
  rw [List.dropWhile_cons, if_pos (by simp [ha])]

theorem strip_eq_nil_all_ws (l : Line) (h : strip l = []) :
    ∀ c ∈ l, isPySpace c = true := by
  induction l with
  | nil => simp
  | cons a t ih =>
    by_cases ha : isPySpace a = true
    · rw [strip_cons_ws a t ha] at h
      intro c hc
      rcases List.mem_cons.mp hc with hc | hc
      · exact hc ▸ ha
      · exact ih h c hc
    · have ha' : isPySpace a = false := by
        cases hx : isPySpace a
        · rfl
        · exact absurd hx ha
      rw [strip_cons a t ha'] at h
      simp at h

theorem isBlank_not_heading (l : Line) (h : isBlank l = true) :
    isHeading l = false := by
  have hall := strip_eq_nil_all_ws l (by simpa [isBlank] using h)
  cases l with
  | nil => rfl
  | cons a t =>
    cases t with
    | nil => simp [isHeading]
    | cons c r =>
      have hws := hall a (by simp)
      have ha : ¬(a = '#') := by
        intro he
        rw [he] at hws
        exact absurd hws (by decide)
      simp [isHeading, ha]

theorem isBlank_not_list (l : Line) (h : isBlank l = true) :
    isListLine l = false := by
  have hall := strip_eq_nil_all_ws l (by simpa [isBlank] using h)
  have hdw : l.dropWhile isPySpace = [] := by
    have := dropWhile_append_all isPySpace l [] hall
    simpa using this
  simp [isListLine, hdw]

theorem isBlank_not_fence (l : Line) (h : isBlank l = true) :
    isFence l = false := by
  have hs : strip l = [] := by simpa [isBlank] using h
  simp [isFence, hs, startsWith]

theorem beforeBlanks_blank_self (prev l : Line) (h : isBlank l = true) :
    beforeBlanks prev l = [] := by
  simp [beforeBlanks, isBlank_not_heading l h, isBlank_not_list l h,
    isBlank_not_fence l h]

theorem afterBlanks_blank_self (l next : Line) (h : isBlank l = true) :
    afterBlanks l next = [] := by
  simp [afterBlanks, isBlank_not_heading l h, isBlank_not_list l h,
    isBlank_not_fence l h]

theorem mem_beforeBlanks (prev l x : Line) (hx : x ∈ beforeBlanks prev l) :
    x = [] := by
  unfold beforeBlanks at hx
  rcases List.mem_append.mp hx with h | h
  · rcases List.mem_append.mp h with h | h <;> (split_ifs at h <;> simpa using h)
  · split_ifs at h <;> simpa using h

theorem mem_afterBlanks (l next x : Line) (hx : x ∈ afterBlanks l next) :
    x = [] := by
  unfold afterBlanks at hx
  rcases List.mem_append.mp hx with h | h
  · rcases List.mem_append.mp h with h | h <;> (split_ifs at h <;> simpa using h)
  · split_ifs at h <;> simpa using h

theorem mem_pass2Go (prev : Line) (ls : List Line) (x : Line)
    (hx : x ∈ pass2Go prev ls) : x ∈ ls ∨ x = [] := by
  induction ls generalizing prev with
  | nil => simp [pass2Go] at hx
  | cons l ls ih =>
    unfold pass2Go pass2Block at hx
    rcases List.mem_append.mp hx with h | h
    · rcases List.mem_append.mp h with h | h
      · exact Or.inr (mem_beforeBlanks prev l x h)
      · rcases List.mem_cons.mp h with h | h
        · exact Or.inl (by simp [h])
        · exact Or.inr (mem_afterBlanks l _ x h)
    · rcases ih l h with h | h
      · exact Or.inl (List.mem_cons_of_mem l h)
      · exact Or.inr h

/-- A pair of adjacent lines on which the blank-insertion pass of
`fix_markdown_complete` is stable: one of them is blank, or the pair was
evaluated with no insertion between them. -/
def goodPair (a b : Line) : Prop :=
  isBlank a = true ∨ isBlank b = true ∨
    (afterBlanks a b = [] ∧ beforeBlanks a b = [])

theorem goodPair_blank_left (a b : Line) (h : isBlank a = true) :
    goodPair a b := Or.inl h

theorem goodPair_blank_right (a b : Line) (h : isBlank b = true) :
    goodPair a b := Or.inr (Or.inl h)

theorem goodPair_nil_right (a : Line) : goodPair a [] :=
  goodPair_blank_right a [] (by decide)

theorem goodPair_nil_left (b : Line) : goodPair [] b :=
  goodPair_blank_left [] b (by decide)

theorem goodPair_elim_before (a b : Line) (h : goodPair a b) :
    beforeBlanks a b = [] := by
  rcases h with h | h | h
  · exact beforeBlanks_blank_prev a b h
  · exact beforeBlanks_blank_self a b h
  · exact h.2

theorem goodPair_elim_after (a b : Line) (h : goodPair a b) :
    afterBlanks a b = [] := by
  rcases h with h | h | h
  · exact afterBlanks_blank_self a b h
  · exact afterBlanks_blank_next a b h
  · exact h.1

theorem chain'_blanks_append (A R : List Line)
    (hA : ∀ y ∈ A, isBlank y = true) (hR : List.Chain' goodPair R) :
    List.Chain' goodPair (A ++ R) := by
  induction A with
  | nil => simpa using hR
  | cons y A' ih =>
    rw [List.cons_append, List.chain'_cons']
    refine ⟨?_, ih (fun z hz => hA z (List.mem_cons_of_mem y hz))⟩
    intro b _
    exact goodPair_blank_left y b (hA y (by simp))

theorem pass2Go_head (prev hd : Line) (tl : List Line) (y : Line)
    (hy : (pass2Go prev (hd :: tl)).head? = some y) :
    isBlank y = true ∨ (y = hd ∧ beforeBlanks prev hd = []) := by
  unfold pass2Go pass2Block at hy
  rcases hB : beforeBlanks prev hd with _ | ⟨b, B'⟩ <;> rw [hB] at hy
  · simp at hy
    exact Or.inr ⟨hy.symm, rfl⟩
  · simp at hy
    have hb : b = [] := mem_beforeBlanks prev hd b (by rw [hB]; simp)
    subst hb
    rw [← hy]
    exact Or.inl (by decide)

theorem pass2Go_chain (prev : Line) (ls : List Line) :
    List.Chain' goodPair (pass2Go prev ls) := by
  induction ls generalizing prev with
  | nil => simp [pass2Go]
  | cons l ls ih =>
    have h1 : pass2Go prev (l :: ls) =
        pass2Block prev l (ls.headD []) ++ pass2Go l ls := rfl
    have hshape : pass2Go prev (l :: ls) =
        beforeBlanks prev l ++ (l :: (afterBlanks l (ls.headD []) ++
          pass2Go l ls)) := by
      rw [h1]
      unfold pass2Block
      simp
    rw [hshape]
    apply chain'_blanks_append _ _ (fun y hy => by
      rw [mem_beforeBlanks prev l y hy]; decide)
    rw [List.chain'_cons']
    constructor
    · intro b hb
      rcases hA : afterBlanks l (ls.headD []) with _ | ⟨a, A'⟩
      · rw [hA] at hb
        simp only [List.nil_append] at hb
        cases ls with
        | nil =>
          simp [pass2Go] at hb
        | cons hd tl =>
          rcases pass2Go_head l hd tl b (by simpa using hb) with h | ⟨he, hbef⟩
          · exact goodPair_blank_right l b h
          · subst he
            refine Or.inr (Or.inr ⟨?_, hbef⟩)
            simpa using hA
      · rw [hA] at hb
        simp at hb
        have ha : a = [] := mem_afterBlanks l _ a (by rw [hA]; simp)
        rw [← hb, ha]
        exact goodPair_nil_right l
    · exact chain'_blanks_append _ _ (fun y hy => by
        rw [mem_afterBlanks l _ y hy]; decide) (ih l)

theorem pass2Go_stable (ls : List Line) (prev : Line)
    (hc : List.Chain' goodPair ls)
    (hp : ∀ y, ls.head? = some y → isBlank prev = true ∨ goodPair prev y) :
    pass2Go prev ls = ls := by
  induction ls generalizing prev with
  | nil => rfl
  | cons l ls ih =>
    have hbef : beforeBlanks prev l = [] := by
      rcases hp l rfl with h | h
      · exact beforeBlanks_blank_prev prev l h
      · exact goodPair_elim_before prev l h
    have haft : afterBlanks l (ls.headD []) = [] := by
      cases ls with
      | nil => exact afterBlanks_blank_next l [] (by decide)
      | cons hd tl =>
        have := (List.chain'_cons'.mp hc).1 hd rfl
        exact goodPair_elim_after l hd this
    unfold pass2Go pass2Block
    rw [hbef, haft]
    simp only [List.nil_append, List.append_nil, List.cons_append]
    rw [ih l (List.chain'_cons'.mp hc).2 (fun y hy =>
      Or.inr ((List.chain'_cons'.mp hc).1 y hy))]

theorem pass2_chain (ls : List Line) : List.Chain' goodPair (pass2 ls) :=
  pass2Go_chain [] ls

theorem pass2_stable (ls : List Line) (hc : List.Chain' goodPair ls) :
    pass2 ls = ls :=
  pass2Go_stable ls [] hc (fun _ _ => Or.inl (by decide))

/-! ### The MD012 collapse at the level of line lists -/

theorem gen_dropWhile_head_false {α : Type} (p : α → Bool) (l : List α)
    (a : α) (t : List α) (h : l.dropWhile p = a :: t) : p a = false := by
  induction l with
  | nil => simp at h
  | cons c cs ih =>
    rw [List.dropWhile_cons] at h
    by_cases hc : p c = true
    · rw [if_pos hc] at h
      exact ih h
    · rw [if_neg hc] at h
      have : c = a := (List.cons.injEq _ _ _ _ ▸ h).1
      subst this
      cases hpc : p c
      · rfl
      · exact absurd hpc hc

theorem gen_dropWhile_of_takeWhile_nil {α : Type} (p : α → Bool) (l : List α)
    (h : l.takeWhile p = []) : l.dropWhile p = l := by
  cases l with
  | nil => rfl
  | cons a t =>
    rw [List.takeWhile_cons] at h
    by_cases ha : p a = true
    · rw [if_pos ha] at h
      simp at h
    · rw [List.dropWhile_cons, if_neg ha]

/-- Absorbing a leading newline run into the pending counter. -/
theorem collapseGo_replicate (j k : Nat) (y : List Char) :
    collapseGo k (List.replicate j '\n' ++ y) = collapseGo (k + j) y := by
  induction j generalizing k with
  | zero => rfl
  | succ j ih =>
    rw [List.replicate_succ, List.cons_append, collapseGo, if_pos rfl, ih]
    congr 1
    omega

/-- Flushing the pending counter before a non-newline character (or the
end of the text). -/
theorem collapseGo_flush (k : Nat) (y : List Char)
    (hy : y = [] ∨ ∃ c y', y = c :: y' ∧ ¬(c = '\n')) :
    collapseGo k y = List.replicate (min k 2) '\n' ++ collapseGo 0 y := by
  rcases hy with hy | ⟨c, y', hy, hc⟩
  · subst hy
    simp [collapseGo]
  · subst hy
    rw [collapseGo, if_neg hc, collapseGo, if_neg hc]
    simp

theorem collapseGo_nonNl_prefix (x y : List Char) (hx : '\n' ∉ x) :
    collapseGo 0 (x ++ y) = x ++ collapseGo 0 y := by
  induction x with
  | nil => rfl
  | cons c x' ih =>
    have hc : ¬(c = '\n') := fun e => hx (e ▸ List.mem_cons_self c x')
    rw [List.cons_append, collapseGo, if_neg hc,
      ih (fun e => hx (List.mem_cons_of_mem c e))]
    simp

/-- The line-level collapse for a list whose head is a nonempty line. -/
def clgo : List Line → List Line
  | [] => []
  | l :: rest =>
    if rest.dropWhile (· = []) = [] then
      l :: List.replicate (min (rest.takeWhile (· = [])).length 2) []
    else
      l :: (List.replicate (min ((rest.takeWhile (· = [])).length + 1) 2 - 1) []
        ++ clgo (rest.dropWhile (· = [])))
termination_by ls => ls.length
decreasing_by
  simp only [List.length_cons]
  exact Nat.lt_succ_of_le (List.dropWhile_suffix _).length_le

/-- The MD012 collapse expressed on the line list. -/
def collapseLines (r : List Line) : List Line :=
  if r = [] then []
  else if r.dropWhile (· = []) = [] then
    List.replicate (min (r.length - 1) 2 + 1) []
  else
    List.replicate (min (r.takeWhile (· = [])).length 2) [] ++
      clgo (r.dropWhile (· = []))

theorem joinSep_replicate_nil (c : Char) (m : Nat) :
    joinSep c (List.replicate (m + 1) ([] : Line)) = List.replicate m c := by
  induction m with
  | zero => rfl
  | succ m ih =>
    rw [List.replicate_succ, joinSep_cons _ _ _ (by simp), ih]
    simp [List.replicate_succ]

theorem joinSep_replicate_append (c : Char) (m : Nat) (rest : List Line)
    (h : rest ≠ []) :
    joinSep c (List.replicate m ([] : Line) ++ rest) =
      List.replicate m c ++ joinSep c rest := by
  induction m with
  | zero => rfl
  | succ m ih =>
    rw [List.replicate_succ, List.cons_append,
      joinSep_cons _ _ _ (by
        intro he
        have := congrArg List.length he
        simp at this
        exact h this.2), ih]
    simp [List.replicate_succ]

theorem joinSep_cons_replicate (c : Char) (l : Line) (m : Nat) :
    joinSep c (l :: List.replicate m ([] : Line)) =
      l ++ List.replicate m c := by
  cases m with
  | zero => simp [joinSep]
  | succ m =>
    rw [joinSep_cons _ _ _ (by simp), joinSep_replicate_nil]
    simp [List.replicate_succ]

theorem clgo_cons (l : Line) (rest : List Line) :
    ∃ t, clgo (l :: rest) = l :: t := by
  unfold clgo
  split_ifs <;> exact ⟨_, rfl⟩

theorem clgo_ne_nil (l : Line) (rest : List Line) : clgo (l :: rest) ≠ [] := by
  obtain ⟨t, ht⟩ := clgo_cons l rest
  rw [ht]
  simp

/-- On a line list with a nonempty head, the character-level MD012 collapse
of the joined text is the join of the line-level collapse. -/
theorem clgo_comm : ∀ (n : Nat) (s : List Line), s.length ≤ n →
    (∀ x ∈ s, '\n' ∉ x) →
    ∀ hd tl, s = hd :: tl → hd ≠ [] →
    collapseGo 0 (joinSep '\n' s) = joinSep '\n' (clgo s) := by
  intro n
  induction n with
  | zero =>
    intro s hlen _ hd tl hs _
    subst hs
    simp at hlen
  | succ n ih =>
    intro s hlen hfree hd tl hs hhd
    subst hs
    have hhdfree : '\n' ∉ hd := hfree hd (List.mem_cons_self _ _)
    set m := (tl.takeWhile (· = ([] : Line))).length with hm
    have htw : tl.takeWhile (· = ([] : Line)) = List.replicate m ([] : Line) := by
      apply List.eq_replicate_iff.mpr
      refine ⟨hm.symm, fun b hb => ?_⟩
      have := List.mem_takeWhile_imp hb
      simpa using this
    by_cases h0 : tl.dropWhile (· = ([] : Line)) = []
    · have htl : tl = List.replicate m ([] : Line) := by
        conv_lhs => rw [← List.takeWhile_append_dropWhile (p := (· = ([] : Line))) (l := tl)]
        rw [h0, List.append_nil, htw]
      have hclgo : clgo (hd :: tl) = hd :: List.replicate (min m 2) ([] : Line) := by
        simp only [clgo]
        rw [if_pos h0, ← hm]
      rw [hclgo, joinSep_cons_replicate]
      conv_lhs => rw [htl]
      rw [joinSep_cons_replicate, collapseGo_nonNl_prefix _ _ hhdfree]
      congr 1
      have h2 := collapseGo_replicate m 0 []
      rw [List.append_nil] at h2
      rw [h2, Nat.zero_add]
      rfl
    · rcases hepx : tl.dropWhile (· = ([] : Line)) with _ | ⟨hd2, tl2⟩
      · exact absurd hepx h0
      have hhd2 : hd2 ≠ ([] : Line) := by
        have hfalse := gen_dropWhile_head_false _ _ _ _ hepx
        simpa using hfalse
      have hsub : ∀ x ∈ hd2 :: tl2, x ∈ hd :: tl := by
        intro x hx
        have hx' : x ∈ tl :=
          (List.dropWhile_suffix (· = ([] : Line))).sublist.subset (hepx ▸ hx)
        exact List.mem_cons_of_mem _ hx'
      have hfree2 : ∀ x ∈ hd2 :: tl2, '\n' ∉ x := fun x hx => hfree x (hsub x hx)
      have hlen2 : (hd2 :: tl2).length ≤ n := by
        have h1 : (tl.dropWhile (· = ([] : Line))).length ≤ tl.length :=
          (List.dropWhile_suffix _).length_le
        rw [hepx] at h1
        simp only [List.length_cons] at hlen h1 ⊢
        omega
      have hIH := ih (hd2 :: tl2) hlen2 hfree2 hd2 tl2 rfl hhd2
      have htlne : tl ≠ [] := by
        intro he
        rw [he] at hepx
        simp at hepx
      have htl : tl = List.replicate m ([] : Line) ++ (hd2 :: tl2) := by
        conv_lhs => rw [← List.takeWhile_append_dropWhile (p := (· = ([] : Line))) (l := tl)]
        rw [hepx, htw]
      obtain ⟨c0, hd2', hc0eq⟩ : ∃ c0 h2, hd2 = c0 :: h2 := by
        cases hd2 with
        | nil => exact absurd rfl hhd2
        | cons a b => exact ⟨a, b, rfl⟩
      have hc0 : ¬(c0 = '\n') := by
        intro he
        exact hfree2 hd2 (List.mem_cons_self _ _)
          (by rw [hc0eq, he]; exact List.mem_cons_self _ _)
      have hJ : ∃ t, joinSep '\n' (hd2 :: tl2) = c0 :: t := by
        cases tl2 with
        | nil => exact ⟨hd2', by rw [hc0eq]; rfl⟩
        | cons y ys =>
          refine ⟨hd2' ++ '\n' :: joinSep '\n' (y :: ys), ?_⟩
          rw [joinSep_cons _ _ _ (by simp), hc0eq]
          rfl
      have hL : collapseGo 0 (joinSep '\n' (hd :: tl)) =
          hd ++ (List.replicate (min (m + 1) 2) '\n' ++
            joinSep '\n' (clgo (hd2 :: tl2))) := by
        calc collapseGo 0 (joinSep '\n' (hd :: tl))
            = collapseGo 0 (hd ++ '\n' :: joinSep '\n' tl) := by
              rw [joinSep_cons _ _ _ htlne]
          _ = collapseGo 0 (hd ++ ('\n' :: (List.replicate m '\n' ++
                joinSep '\n' (hd2 :: tl2)))) := by
              conv_lhs => rw [htl]
              rw [joinSep_replicate_append _ _ _ (by simp)]
          _ = collapseGo 0 (hd ++ (List.replicate (m + 1) '\n' ++
                joinSep '\n' (hd2 :: tl2))) := by
              simp [List.replicate_succ]
          _ = hd ++ collapseGo 0 (List.replicate (m + 1) '\n' ++
                joinSep '\n' (hd2 :: tl2)) :=
              collapseGo_nonNl_prefix _ _ hhdfree
          _ = hd ++ collapseGo (m + 1) (joinSep '\n' (hd2 :: tl2)) := by
              rw [collapseGo_replicate, Nat.zero_add]
          _ = hd ++ (List.replicate (min (m + 1) 2) '\n' ++
                collapseGo 0 (joinSep '\n' (hd2 :: tl2))) := by
              obtain ⟨t, ht⟩ := hJ
              rw [collapseGo_flush _ _ (Or.inr ⟨c0, t, ht, hc0⟩)]
          _ = hd ++ (List.replicate (min (m + 1) 2) '\n' ++
                joinSep '\n' (clgo (hd2 :: tl2))) := by
              rw [hIH]
      have hclgo : clgo (hd :: tl) =
          hd :: (List.replicate (min (m + 1) 2 - 1) ([] : Line) ++
            clgo (hd2 :: tl2)) := by
        conv_lhs => simp only [clgo]
        rw [if_neg h0, hepx, ← hm]
      have hXne : List.replicate (min (m + 1) 2 - 1) ([] : Line) ++
          clgo (hd2 :: tl2) ≠ [] :=
        fun hX => clgo_ne_nil hd2 tl2 (List.append_eq_nil.mp hX).2
      have hR : joinSep '\n' (clgo (hd :: tl)) =
          hd ++ (List.replicate (min (m + 1) 2) '\n' ++
            joinSep '\n' (clgo (hd2 :: tl2))) := by
        calc joinSep '\n' (clgo (hd :: tl))
            = joinSep '\n' (hd :: (List.replicate (min (m + 1) 2 - 1) ([] : Line) ++
                clgo (hd2 :: tl2))) := by rw [hclgo]
          _ = hd ++ '\n' :: joinSep '\n' (List.replicate (min (m + 1) 2 - 1) ([] : Line) ++
                clgo (hd2 :: tl2)) := joinSep_cons _ _ _ hXne
          _ = hd ++ '\n' :: (List.replicate (min (m + 1) 2 - 1) '\n' ++
                joinSep '\n' (clgo (hd2 :: tl2))) := by
              rw [joinSep_replicate_append _ _ _ (clgo_ne_nil hd2 tl2)]
          _ = hd ++ (List.replicate (min (m + 1) 2) '\n' ++
                joinSep '\n' (clgo (hd2 :: tl2))) := by
              have hmin : min (m + 1) 2 = (min (m + 1) 2 - 1) + 1 := by omega
              rw [hmin, List.replicate_succ]
              rfl
      rw [hL, hR]

/-- MD012 collapse commutes with joining newline-free lines. -/
theorem collapse_commute (r : List Line) (hfree : ∀ x ∈ r, '\n' ∉ x) :
    collapseNl (joinSep '\n' r) = joinSep '\n' (collapseLines r) := by
  unfold collapseNl collapseLines
  by_cases hnil : r = []
  · subst hnil
    rfl
  rw [if_neg hnil]
  by_cases h0 : r.dropWhile (· = ([] : Line)) = []
  · rw [if_pos h0]
    have hr2 : r.takeWhile (· = ([] : Line)) = r := by
      conv_rhs => rw [← List.takeWhile_append_dropWhile (p := (· = ([] : Line))) (l := r)]
      rw [h0, List.append_nil]
    have hrep : r = List.replicate r.length ([] : Line) := by
      apply List.eq_replicate_iff.mpr
      refine ⟨rfl, fun b hb => ?_⟩
      have hb2 : b ∈ r.takeWhile (· = ([] : Line)) := by
        rw [hr2]
        exact hb
      have := List.mem_takeWhile_imp hb2
      simpa using this
    rcases hk : r.length with _ | k
    · exact absurd (List.length_eq_zero.mp hk) hnil
    have hrep' : r = List.replicate (k + 1) ([] : Line) := by
      conv_lhs => rw [hrep, hk]
    rw [hrep']
    simp only [List.length_replicate, Nat.add_sub_cancel]
    rw [joinSep_replicate_nil, joinSep_replicate_nil]
    have h2 := collapseGo_replicate k 0 []
    rw [List.append_nil] at h2
    rw [h2, Nat.zero_add]
    rfl
  · rcases hepx : r.dropWhile (· = ([] : Line)) with _ | ⟨hd2, tl2⟩
    · exact absurd hepx h0
    rw [if_neg (by simp : ¬(hd2 :: tl2 = ([] : List Line)))]
    have hhd2 : hd2 ≠ ([] : Line) := by
      have hfalse := gen_dropWhile_head_false _ _ _ _ hepx
      simpa using hfalse
    have hsub : ∀ x ∈ hd2 :: tl2, x ∈ r := by
      intro x hx
      exact (List.dropWhile_suffix (· = ([] : Line))).sublist.subset (hepx ▸ hx)
    have hfree2 : ∀ x ∈ hd2 :: tl2, '\n' ∉ x := fun x hx => hfree x (hsub x hx)
    set m0 := (r.takeWhile (· = ([] : Line))).length with hm0
    have htw : r.takeWhile (· = ([] : Line)) = List.replicate m0 ([] : Line) := by
      apply List.eq_replicate_iff.mpr
      refine ⟨hm0.symm, fun b hb => ?_⟩
      have := List.mem_takeWhile_imp hb
      simpa using this
    have htl : r = List.replicate m0 ([] : Line) ++ (hd2 :: tl2) := by
      conv_lhs => rw [← List.takeWhile_append_dropWhile (p := (· = ([] : Line))) (l := r)]
      rw [hepx, htw]
    obtain ⟨c0, hd2', hc0eq⟩ : ∃ c0 h2, hd2 = c0 :: h2 := by
      cases hd2 with
      | nil => exact absurd rfl hhd2
      | cons a b => exact ⟨a, b, rfl⟩
    have hc0 : ¬(c0 = '\n') := by
      intro he
      exact hfree2 hd2 (List.mem_cons_self _ _)
        (by rw [hc0eq, he]; exact List.mem_cons_self _ _)
    have hJ : ∃ t, joinSep '\n' (hd2 :: tl2) = c0 :: t := by
      cases tl2 with
      | nil => exact ⟨hd2', by rw [hc0eq]; rfl⟩
      | cons y ys =>
        refine ⟨hd2' ++ '\n' :: joinSep '\n' (y :: ys), ?_⟩
        rw [joinSep_cons _ _ _ (by simp), hc0eq]
        rfl
    have hmain := clgo_comm (hd2 :: tl2).length (hd2 :: tl2) le_rfl hfree2 hd2 tl2 rfl hhd2
    conv_lhs => rw [htl]
    rw [joinSep_replicate_append _ _ _ (by simp), collapseGo_replicate, Nat.zero_add]
    obtain ⟨t, ht⟩ := hJ
    rw [collapseGo_flush _ _ (Or.inr ⟨c0, t, ht, hc0⟩), hmain,
      joinSep_replicate_append _ _ _ (clgo_ne_nil hd2 tl2)]

theorem clgo_mem : ∀ (n : Nat) (s : List Line), s.length ≤ n →
    ∀ x ∈ clgo s, x ∈ s ∨ x = [] := by
  intro n
  induction n with
  | zero =>
    intro s hlen x hx
    rcases s with _ | ⟨l, rest⟩
    · simp [clgo] at hx
    · simp at hlen
  | succ n ih =>
    intro s hlen x hx
    rcases s with _ | ⟨l, rest⟩
    · simp [clgo] at hx
    simp only [clgo] at hx
    by_cases h0 : rest.dropWhile (· = ([] : Line)) = []
    · rw [if_pos h0] at hx
      rcases List.mem_cons.mp hx with h1 | h1
      · exact Or.inl (by rw [h1]; exact List.mem_cons_self _ _)
      · exact Or.inr (List.eq_of_mem_replicate h1)
    · rw [if_neg h0] at hx
      rcases List.mem_cons.mp hx with h1 | h1
      · exact Or.inl (by rw [h1]; exact List.mem_cons_self _ _)
      rcases List.mem_append.mp h1 with h2 | h2
      · exact Or.inr (List.eq_of_mem_replicate h2)
      · have hlen2 : (rest.dropWhile (· = ([] : Line))).length ≤ n := by
          have h3 : (rest.dropWhile (· = ([] : Line))).length ≤ rest.length :=
            (List.dropWhile_suffix _).length_le
          simp only [List.length_cons] at hlen
          omega
        rcases ih _ hlen2 x h2 with h3 | h3
        · exact Or.inl (List.mem_cons_of_mem _
            ((List.dropWhile_suffix (· = ([] : Line))).sublist.subset h3))
        · exact Or.inr h3

theorem collapseLines_mem (r : List Line) (x : Line) (hx : x ∈ collapseLines r) :
    x ∈ r ∨ x = [] := by
  unfold collapseLines at hx
  split_ifs at hx with h1 h2
  · simp at hx
  · exact Or.inr (List.eq_of_mem_replicate hx)
  · rcases List.mem_append.mp hx with h | h
    · exact Or.inr (List.eq_of_mem_replicate h)
    · rcases hepx : r.dropWhile (· = ([] : Line)) with _ | ⟨hd2, tl2⟩
      · exact absurd hepx h2
      · rw [hepx] at h
        rcases clgo_mem (hd2 :: tl2).length _ le_rfl x h with h3 | h3
        · refine Or.inl ((List.dropWhile_suffix (· = ([] : Line))).sublist.subset ?_)
          rw [hepx]
          exact h3
        · exact Or.inr h3

theorem clgo_chain : ∀ (n : Nat) (s : List Line), s.length ≤ n →
    List.Chain' goodPair s → List.Chain' goodPair (clgo s) := by
  intro n
  induction n with
  | zero =>
    intro s hlen _
    rcases s with _ | ⟨l, rest⟩
    · simp only [clgo]
      exact List.chain'_nil
    · simp at hlen
  | succ n ih =>
    intro s hlen hc
    rcases s with _ | ⟨l, rest⟩
    · simp only [clgo]
      exact List.chain'_nil
    simp only [clgo]
    by_cases h0 : rest.dropWhile (· = ([] : Line)) = []
    · rw [if_pos h0, List.chain'_cons']
      constructor
      · intro y hy
        rcases hm : min (rest.takeWhile (· = ([] : Line))).length 2 with _ | k
        · rw [hm] at hy
          simp at hy
        · rw [hm, List.replicate_succ] at hy
          simp at hy
          exact goodPair_blank_right _ _ (by rw [hy]; exact isBlank_nil)
      · have := chain'_blanks_append
          (List.replicate (min (rest.takeWhile (· = ([] : Line))).length 2) ([] : Line)) []
          (fun y hy => by rw [List.eq_of_mem_replicate hy]; exact isBlank_nil)
          List.chain'_nil
        simpa using this
    · rw [if_neg h0]
      rcases hepx : rest.dropWhile (· = ([] : Line)) with _ | ⟨hd2, tl2⟩
      · exact absurd hepx h0
      have hsuf : (hd2 :: tl2) <:+ rest := by
        rw [← hepx]
        exact List.dropWhile_suffix _
      have hch2 : List.Chain' goodPair (hd2 :: tl2) :=
        hc.suffix (hsuf.trans (List.suffix_cons l rest))
      have hlen2 : (hd2 :: tl2).length ≤ n := by
        have h1 := hsuf.length_le
        simp only [List.length_cons] at hlen h1 ⊢
        omega
      have hcl := ih (hd2 :: tl2) hlen2 hch2
      rw [List.chain'_cons']
      constructor
      · intro y hy
        rcases Nat.eq_zero_or_pos (rest.takeWhile (· = ([] : Line))).length with hz | hp
        · have h00 : min ((rest.takeWhile (· = ([] : Line))).length + 1) 2 - 1 = 0 := by
            omega
          obtain ⟨t, ht⟩ := clgo_cons hd2 tl2
          rw [h00, List.replicate_zero, List.nil_append, ht] at hy
          simp at hy
          have hr : rest = hd2 :: tl2 := by
            have h1 : rest.takeWhile (· = ([] : Line)) = [] :=
              List.length_eq_zero.mp hz
            have h2 := gen_dropWhile_of_takeWhile_nil _ _ h1
            rw [← h2]
            exact hepx
          rw [← hy]
          rw [hr] at hc
          exact (List.chain'_cons.mp hc).1
        · have h1 : min ((rest.takeWhile (· = ([] : Line))).length + 1) 2 - 1 = 1 := by
            omega
          rw [h1, List.replicate_one] at hy
          simp at hy
          exact goodPair_blank_right _ _ (by rw [hy]; exact isBlank_nil)
      · exact chain'_blanks_append _ _
          (fun y hy => by rw [List.eq_of_mem_replicate hy]; exact isBlank_nil) hcl

theorem collapseLines_chain (r : List Line) (hc : List.Chain' goodPair r) :
    List.Chain' goodPair (collapseLines r) := by
  unfold collapseLines
  split_ifs with h1 h2
  · exact List.chain'_nil
  · have := chain'_blanks_append
      (List.replicate (min (r.length - 1) 2 + 1) ([] : Line)) []
      (fun y hy => by rw [List.eq_of_mem_replicate hy]; exact isBlank_nil)
      List.chain'_nil
    simpa using this
  · rcases hepx : r.dropWhile (· = ([] : Line)) with _ | ⟨hd2, tl2⟩
    · exact absurd hepx h2
    apply chain'_blanks_append
    · intro y hy
      rw [List.eq_of_mem_replicate hy]
      exact isBlank_nil
    · apply clgo_chain (hd2 :: tl2).length _ le_rfl
      apply hc.suffix
      rw [← hepx]
      exact List.dropWhile_suffix _

/-- `pass1Line` introduces no newline character. -/
theorem pass1Line_no_nl (l : Line) (h : '\n' ∉ l) : '\n' ∉ pass1Line l := by
  unfold pass1Line
  dsimp only []
  by_cases hs : sepShape l = true
  · rw [if_pos hs]
    intro hc
    rcases mem_joinSep '|' _ '\n' hc with h1 | ⟨x, hx, hcx⟩
    · exact absurd h1 (by decide)
    · rcases mem_mapInterior sepCell _ x hx with h1 | ⟨p, hp, he⟩
      · exact h (mem_splitSep_chars '|' l x '\n' h1 hcx)
      · subst he
        rcases sepCell_chars p '\n' hcx with h1 | h1
        · exact absurd h1 (by decide)
        · exact h (mem_splitSep_chars '|' l p '\n' hp h1)
  · rw [if_neg hs]
    by_cases ht : strip l = ("```".toList)
    · rw [if_pos ht]
      decide
    · rw [if_neg ht]
      exact h

/-! ### Trailing-newline bookkeeping for MD012 and the final rstrip -/

theorem gen_dropWhile_all {α : Type} (p : α → Bool) (A l : List α)
    (hA : ∀ a ∈ A, p a = true) :
    (A ++ l).dropWhile p = l.dropWhile p := by
  induction A with
  | nil => rfl
  | cons a A' ih =>
    rw [List.cons_append, List.dropWhile_cons, if_pos (hA a (List.mem_cons_self _ _))]
    exact ih (fun b hb => hA b (List.mem_cons_of_mem a hb))

theorem gen_takeWhile_append_notsat {α : Type} (p : α → Bool) (c : α)
    (xs ys : List α) (hc : p c = false) :
    (xs ++ c :: ys).takeWhile p = xs.takeWhile p := by
  induction xs with
  | nil =>
    rw [List.nil_append, List.takeWhile_cons]
    simp [hc]
  | cons a xs' ih =>
    simp only [List.cons_append, List.takeWhile_cons, ih]

/-- Number of trailing newline characters. -/
def trailNl (x : List Char) : Nat := ((x.reverse).takeWhile (· = '\n')).length

theorem rev_takeWhile_nl (x : List Char) :
    x.reverse.takeWhile (· = '\n') = List.replicate (trailNl x) '\n' := by
  apply List.eq_replicate_iff.mpr
  refine ⟨rfl, fun b hb => ?_⟩
  have := List.mem_takeWhile_imp hb
  simpa using this

theorem rstrip_decomp (x : List Char) :
    x = rstripNl x ++ List.replicate (trailNl x) '\n' := by
  conv_lhs => rw [← List.reverse_reverse x,
    ← List.takeWhile_append_dropWhile (p := (· = '\n')) (l := x.reverse)]
  rw [List.reverse_append]
  unfold rstripNl
  congr 1
  rw [rev_takeWhile_nl, List.reverse_replicate]

theorem rstripNl_getLast (x : List Char) :
    (rstripNl x).getLast? ≠ some '\n' := by
  unfold rstripNl
  rw [List.getLast?_reverse]
  rcases hd : x.reverse.dropWhile (· = '\n') with _ | ⟨a, t⟩
  · simp
  · have := gen_dropWhile_head_false _ _ _ _ hd
    simp at this
    simp [this]

theorem rstripNl_no_trail (x : List Char) (h : x.getLast? ≠ some '\n') :
    rstripNl x = x := by
  unfold rstripNl
  have hdw : x.reverse.dropWhile (· = '\n') = x.reverse := by
    rcases hx : x.reverse with _ | ⟨a, t⟩
    · rfl
    · have ha : x.getLast? = some a := by
        rw [← List.head?_reverse, hx]
        rfl
      have hne : ¬(a = '\n') := fun e => h (by rw [ha, e])
      rw [List.dropWhile_cons, if_neg (by simpa using hne)]
  rw [hdw, List.reverse_reverse]

theorem rstripNl_append_rep (u : List Char) (j : Nat) :
    rstripNl (u ++ List.replicate j '\n') = rstripNl u := by
  unfold rstripNl
  rw [List.reverse_append, List.reverse_replicate, gen_dropWhile_all]
  intro a ha
  rw [List.eq_of_mem_replicate ha]
  decide

theorem rstripNl_append_nl (u : List Char) :
    rstripNl (u ++ ['\n']) = rstripNl u := by
  have := rstripNl_append_rep u 1
  rwa [List.replicate_one] at this

theorem collapseGo_nil_eq (k : Nat) :
    collapseGo k [] = List.replicate (min k 2) '\n' := rfl

theorem collapseGo_cons_eq (k : Nat) (c : Char) (cs : List Char) :
    collapseGo k (c :: cs) =
      if c = '\n' then collapseGo (k + 1) cs
      else List.replicate (min k 2) '\n' ++ c :: collapseGo 0 cs := rfl

/-- Flushing a trailing newline run through the collapse. -/
theorem collapseGo_append_trail : ∀ (u : List Char) (k j : Nat),
    (u = [] → k = 0) → u.getLast? ≠ some '\n' →
    collapseGo k (u ++ List.replicate j '\n') =
      collapseGo k u ++ List.replicate (min j 2) '\n' := by
  intro u
  induction u with
  | nil =>
    intro k j hk _
    rw [hk rfl, List.nil_append]
    have h2 := collapseGo_replicate j 0 []
    rw [List.append_nil] at h2
    rw [h2, Nat.zero_add]
    rfl
  | cons c u' ih =>
    intro k j hk hlast
    rcases u' with _ | ⟨d, u''⟩
    · have hc : ¬(c = '\n') := by
        intro e
        exact hlast (by rw [e]; rfl)
      calc collapseGo k ([c] ++ List.replicate j '\n')
          = List.replicate (min k 2) '\n' ++
              c :: collapseGo 0 (List.replicate j '\n') := by
            rw [List.singleton_append, collapseGo_cons_eq, if_neg hc]
        _ = List.replicate (min k 2) '\n' ++ c :: List.replicate (min j 2) '\n' := by
            have h2 := collapseGo_replicate j 0 []
            rw [List.append_nil] at h2
            rw [h2, Nat.zero_add]
            rfl
        _ = collapseGo k [c] ++ List.replicate (min j 2) '\n' := by
            rw [collapseGo_cons_eq, if_neg hc, collapseGo_nil_eq]
            simp [List.append_assoc]
    · have hlast2 : (d :: u'').getLast? ≠ some '\n' := by
        intro e
        exact hlast (by rw [List.getLast?_cons_cons]; exact e)
      have hIH := ih 0 j (fun h => absurd h (List.cons_ne_nil d u'')) hlast2
      have hIH' := ih (k + 1) j (fun h => absurd h (List.cons_ne_nil d u'')) hlast2
      by_cases hc : c = '\n'
      · calc collapseGo k ((c :: d :: u'') ++ List.replicate j '\n')
            = collapseGo (k + 1) ((d :: u'') ++ List.replicate j '\n') := by
              rw [List.cons_append, collapseGo_cons_eq, if_pos hc]
          _ = collapseGo (k + 1) (d :: u'') ++ List.replicate (min j 2) '\n' := hIH'
          _ = collapseGo k (c :: d :: u'') ++ List.replicate (min j 2) '\n' := by
              conv_rhs => rw [collapseGo_cons_eq, if_pos hc]
      · calc collapseGo k ((c :: d :: u'') ++ List.replicate j '\n')
            = List.replicate (min k 2) '\n' ++
                c :: collapseGo 0 ((d :: u'') ++ List.replicate j '\n') := by
              rw [List.cons_append, collapseGo_cons_eq, if_neg hc]
          _ = List.replicate (min k 2) '\n' ++
                c :: (collapseGo 0 (d :: u'') ++ List.replicate (min j 2) '\n') := by
              rw [hIH]
          _ = collapseGo k (c :: d :: u'') ++ List.replicate (min j 2) '\n' := by
              conv_rhs => rw [collapseGo_cons_eq, if_neg hc]
              simp [List.append_assoc]

theorem trailNl_append_cons (A B : List Char) (c : Char) (hc : ¬(c = '\n')) :
    trailNl (A ++ c :: B) = trailNl B := by
  unfold trailNl
  rw [List.reverse_append, List.reverse_cons, List.append_assoc, List.singleton_append,
    gen_takeWhile_append_notsat _ _ _ _ (by simpa using hc)]

/-- The collapse never leaves more than two trailing newlines. -/
theorem trailNl_collapseGo (s : List Char) : ∀ k, trailNl (collapseGo k s) ≤ 2 := by
  induction s with
  | nil =>
    intro k
    show trailNl (List.replicate (min k 2) '\n') ≤ 2
    unfold trailNl
    calc ((List.replicate (min k 2) '\n').reverse.takeWhile (· = '\n')).length
        ≤ (List.replicate (min k 2) '\n').reverse.length :=
          (List.takeWhile_prefix _).length_le
      _ ≤ 2 := by
          rw [List.length_reverse, List.length_replicate]
          omega
  | cons c cs ih =>
    intro k
    simp only [collapseGo]
    by_cases hc : c = '\n'
    · rw [if_pos hc]
      exact ih (k + 1)
    · rw [if_neg hc, trailNl_append_cons _ _ _ hc]
      exact ih 0

/-- MD012 collapse is idempotent. -/
theorem collapse_idem (s : List Char) : ∀ k,
    collapseGo 0 (collapseGo k s) = collapseGo k s := by
  induction s with
  | nil =>
    intro k
    show collapseGo 0 (List.replicate (min k 2) '\n') = List.replicate (min k 2) '\n'
    have h2 := collapseGo_replicate (min k 2) 0 []
    rw [List.append_nil] at h2
    rw [h2, Nat.zero_add]
    show List.replicate (min (min k 2) 2) '\n' = _
    congr 1
    omega
  | cons c cs ih =>
    intro k
    rw [collapseGo_cons_eq]
    by_cases hc : c = '\n'
    · rw [if_pos hc]
      exact ih (k + 1)
    · rw [if_neg hc, collapseGo_replicate, Nat.zero_add, collapseGo_cons_eq,
        if_neg hc, ih 0]
      have hm : min (min k 2) 2 = min k 2 := by omega
      rw [hm]

theorem collapseNl_rstrip (w : List Char) :
    collapseNl (rstripNl (collapseNl w)) = rstripNl (collapseNl w) := by
  have ht : trailNl (collapseNl w) ≤ 2 := trailNl_collapseGo w 0
  have hdec := rstrip_decomp (collapseNl w)
  have hlast := rstripNl_getLast (collapseNl w)
  have hidem : collapseNl (collapseNl w) = collapseNl w := collapse_idem w 0
  have h1 : collapseNl (rstripNl (collapseNl w) ++
        List.replicate (trailNl (collapseNl w)) '\n') =
      collapseNl (rstripNl (collapseNl w)) ++
        List.replicate (min (trailNl (collapseNl w)) 2) '\n' := by
    by_cases hu : rstripNl (collapseNl w) = []
    · rw [hu]
      exact collapseGo_append_trail [] 0 _ (fun _ => rfl) (by simp)
    · exact collapseGo_append_trail _ 0 _ (fun h => absurd h hu) hlast
  have hmin : min (trailNl (collapseNl w)) 2 = trailNl (collapseNl w) := by omega
  rw [hmin] at h1
  have h2 : collapseNl (rstripNl (collapseNl w)) ++
        List.replicate (trailNl (collapseNl w)) '\n' =
      rstripNl (collapseNl w) ++ List.replicate (trailNl (collapseNl w)) '\n' := by
    calc collapseNl (rstripNl (collapseNl w)) ++
          List.replicate (trailNl (collapseNl w)) '\n'
        = collapseNl (rstripNl (collapseNl w) ++
            List.replicate (trailNl (collapseNl w)) '\n') := h1.symm
      _ = collapseNl (collapseNl w) := by rw [← hdec]
      _ = collapseNl w := hidem
      _ = rstripNl (collapseNl w) ++
            List.replicate (trailNl (collapseNl w)) '\n' := hdec
  exact List.append_cancel_right h2

/-- The full output text of the MD012 + rstrip postprocessing is a fixed
point of the collapse. -/
theorem collapseNl_output_stable (w : List Char) :
    collapseNl (rstripNl (collapseNl w) ++ ['\n']) =
      rstripNl (collapseNl w) ++ ['\n'] := by
  have hlast := rstripNl_getLast (collapseNl w)
  have h1 : collapseNl (rstripNl (collapseNl w) ++ List.replicate 1 '\n') =
      collapseNl (rstripNl (collapseNl w)) ++ List.replicate (min 1 2) '\n' := by
    by_cases hu : rstripNl (collapseNl w) = []
    · rw [hu]
      exact collapseGo_append_trail [] 0 _ (fun _ => rfl) (by simp)
    · exact collapseGo_append_trail _ 0 _ (fun h => absurd h hu) hlast
  rw [List.replicate_one] at h1
  rw [h1, collapseNl_rstrip]
  congr 1

/-! ### The final `rstrip` at the level of line lists -/

theorem joinSep_concat (c : Char) (M : List Line) (d : Line) (h : M ≠ []) :
    joinSep c (M ++ [d]) = joinSep c M ++ c :: d := by
  induction M with
  | nil => exact absurd rfl h
  | cons m M' ih =>
    cases M' with
    | nil => rfl
    | cons y ys =>
      rw [List.cons_append, joinSep_cons _ _ _ (by simp), ih (by simp)]
      conv_rhs => rw [joinSep_cons _ _ _ (by simp : (y :: ys : List Line) ≠ [])]
      simp [List.append_assoc]

theorem joinSep_append_rep (c : Char) (L : List Line) (t : Nat) (h : L ≠ []) :
    joinSep c (L ++ List.replicate t ([] : Line)) =
      joinSep c L ++ List.replicate t c := by
  induction t with
  | zero => simp
  | succ t ih =>
    rw [List.replicate_succ', ← List.append_assoc,
      joinSep_concat _ _ _ (fun he => h (List.append_eq_nil.mp he).1), ih,
      show List.replicate (t + 1) c = List.replicate t c ++ [c] from
        List.replicate_succ' t c]
    simp [List.append_assoc]

theorem getLast?_joinSep (c : Char) (M : List Line) (d : Line) (hd : d ≠ []) :
    (joinSep c (M ++ [d])).getLast? = d.getLast? := by
  cases M with
  | nil => simp [joinSep]
  | cons m M' =>
    rw [joinSep_concat _ _ _ (by simp)]
    obtain ⟨d', x, hdx⟩ := (List.eq_nil_or_concat d).resolve_left hd
    rw [List.concat_eq_append] at hdx
    subst hdx
    have hsh : joinSep c (m :: M') ++ c :: (d' ++ [x]) =
        (joinSep c (m :: M') ++ c :: d') ++ [x] := by
      simp [List.append_assoc]
    rw [hsh, List.getLast?_concat, List.getLast?_concat]

theorem gen_reverse_decomp {α : Type} (p : α → Bool) (x : List α) :
    x = (x.reverse.dropWhile p).reverse ++ (x.reverse.takeWhile p).reverse := by
  conv_lhs => rw [← List.reverse_reverse x,
    ← List.takeWhile_append_dropWhile (p := p) (l := x.reverse)]
  rw [List.reverse_append]

/-- Removing the trailing run of empty lines (the line-list counterpart of
`rstrip('\n')`). -/
def dropTrailEmpty (r : List Line) : List Line :=
  (r.reverse.dropWhile (· = ([] : Line))).reverse

theorem dropTrailEmpty_decomp (r : List Line) :
    r = dropTrailEmpty r ++
      List.replicate (r.reverse.takeWhile (· = ([] : Line))).length ([] : Line) := by
  have htw : r.reverse.takeWhile (· = ([] : Line)) =
      List.replicate (r.reverse.takeWhile (· = ([] : Line))).length ([] : Line) := by
    apply List.eq_replicate_iff.mpr
    refine ⟨rfl, fun b hb => ?_⟩
    have := List.mem_takeWhile_imp hb
    simpa using this
  conv_lhs => rw [gen_reverse_decomp (· = ([] : Line)) r]
  unfold dropTrailEmpty
  congr 1
  conv_lhs => rw [htw]
  rw [List.reverse_replicate]

theorem dropTrailEmpty_pref (r : List Line) : dropTrailEmpty r <+: r :=
  ⟨_, (dropTrailEmpty_decomp r).symm⟩

theorem dropTrailEmpty_last (r : List Line) (h : dropTrailEmpty r ≠ []) :
    ∃ M d, dropTrailEmpty r = M ++ [d] ∧ d ≠ ([] : Line) := by
  obtain ⟨M, d, hMd⟩ := (List.eq_nil_or_concat (dropTrailEmpty r)).resolve_left h
  rw [List.concat_eq_append] at hMd
  refine ⟨M, d, hMd, ?_⟩
  have h1 : (dropTrailEmpty r).getLast? = some d := by
    rw [hMd, List.getLast?_concat]
  unfold dropTrailEmpty at h1
  rw [List.getLast?_reverse] at h1
  rcases hdw : r.reverse.dropWhile (· = ([] : Line)) with _ | ⟨a, t⟩
  · rw [hdw] at h1
    simp at h1
  · rw [hdw] at h1
    simp at h1
    have h2 := gen_dropWhile_head_false _ _ _ _ hdw
    simp at h2
    rw [← h1]
    exact h2

theorem rstripNl_joinSep (C : List Line) (hfree : ∀ x ∈ C, '\n' ∉ x) :
    rstripNl (joinSep '\n' C) = joinSep '\n' (dropTrailEmpty C) := by
  have hdec := dropTrailEmpty_decomp C
  by_cases hD : dropTrailEmpty C = []
  · rw [hD, List.nil_append] at hdec
    rw [hD]
    rw [show joinSep '\n' C =
        joinSep '\n' (List.replicate
          (C.reverse.takeWhile (· = ([] : Line))).length ([] : Line)) from by
      rw [← hdec]]
    rcases C.reverse.takeWhile (· = ([] : Line)) |>.length with _ | t'
    · rfl
    · rw [joinSep_replicate_nil]
      have h2 := rstripNl_append_rep [] t'
      rw [List.nil_append] at h2
      rw [h2]
      rfl
  · obtain ⟨M, d, hMd, hdne⟩ := dropTrailEmpty_last C hD
    conv_lhs => rw [hdec]
    rw [joinSep_append_rep _ _ _ hD, rstripNl_append_rep]
    apply rstripNl_no_trail
    rw [hMd, getLast?_joinSep _ _ _ hdne]
    obtain ⟨d', x, hdx⟩ := (List.eq_nil_or_concat d).resolve_left hdne
    rw [List.concat_eq_append] at hdx
    rw [hdx, List.getLast?_concat]
    intro he
    simp at he
    have hxd : x ∈ d := by
      rw [hdx]
      exact List.mem_append_right _ (by simp)
    have hdC : d ∈ C := (dropTrailEmpty_pref C).subset
      (by rw [hMd]; exact List.mem_append_right _ (by simp))
    exact hfree d hdC (he ▸ hxd)

theorem splitSep_join_nl (D : List Line) (hD : D ≠ [])
    (hfree : ∀ x ∈ D, '\n' ∉ x) :
    splitSep '\n' (joinSep '\n' D ++ ['\n']) = D ++ [[]] := by
  rw [splitSep_append_sep, splitSep_joinSep _ _ hD hfree]

/-- C2 counterexample: `fix_markdown_errors` is not idempotent.  On the
line `* a * b *` the emphasis rewrite produces `*a* b *`, and a second
application tightens the freshly created match to `*a*b*`. -/
theorem c2_counterexample :
    fix_markdown_errors (fix_markdown_errors ("* a * b *".toList)) ≠
      fix_markdown_errors ("* a * b *".toList) := by decide

/-- C2 (amended): `fix_markdown_complete` is idempotent — applying it twice
yields the same text as applying it once, for every input.  (The original
claim also asserted idempotence of `fix_markdown_errors`, refuted by
`c2_counterexample`.) -/
theorem c2_amended (cs : List Char) :
    fix_markdown_complete (fix_markdown_complete cs) = fix_markdown_complete cs := by
  unfold fix_markdown_complete
  set r := pass2 ((splitSep '\n' cs).map pass1Line) with hr
  have hfree_r : ∀ x ∈ r, '\n' ∉ x := by
    intro x hx
    rw [hr] at hx
    rcases mem_pass2Go [] _ x hx with h | h
    · obtain ⟨u, hu, he⟩ := List.mem_map.mp h
      rw [← he]
      exact pass1Line_no_nl u (mem_splitSep_sepFree '\n' cs u hu)
    · rw [h]
      simp
  have hchain_r : List.Chain' goodPair r := by
    rw [hr]
    exact pass2_chain _
  set w := joinSep '\n' r with hw
  set C := collapseLines r with hC
  have hcomm : collapseNl w = joinSep '\n' C := by
    rw [hw, hC]
    exact collapse_commute r hfree_r
  have hfreeC : ∀ x ∈ C, '\n' ∉ x := by
    intro x hx
    rw [hC] at hx
    rcases collapseLines_mem r x hx with h | h
    · exact hfree_r x h
    · rw [h]
      simp
  have hchainC : List.Chain' goodPair C := by
    rw [hC]
    exact collapseLines_chain r hchain_r
  set D := dropTrailEmpty C with hD
  have hstrip : rstripNl (collapseNl w) = joinSep '\n' D := by
    rw [hcomm, hD]
    exact rstripNl_joinSep C hfreeC
  by_cases hDnil : D = []
  · rw [hstrip, hDnil]
    decide
  · have hfreeD : ∀ x ∈ D, '\n' ∉ x := by
      intro x hx
      rw [hD] at hx
      exact hfreeC x ((dropTrailEmpty_pref C).subset hx)
    have hsplit : splitSep '\n' (rstripNl (collapseNl w) ++ ['\n']) = D ++ [[]] := by
      rw [hstrip]
      exact splitSep_join_nl D hDnil hfreeD
    have hmap : (D ++ [[]]).map pass1Line = D ++ [[]] := by
      have hpt : ∀ x ∈ D ++ [[]], pass1Line x = x := by
        intro x hx
        rcases List.mem_append.mp hx with h | h
        · have hxC : x ∈ C := by
            apply (dropTrailEmpty_pref C).subset
            rw [← hD]
            exact h
          rw [hC] at hxC
          rcases collapseLines_mem r x hxC with h2 | h2
          · rw [hr] at h2
            rcases mem_pass2Go [] _ x h2 with h3 | h3
            · obtain ⟨u, hu, he⟩ := List.mem_map.mp h3
              rw [← he, pass1Line_idem]
            · rw [h3]
              exact pass1Line_nil
          · rw [h2]
            exact pass1Line_nil
        · simp at h
          rw [h]
          exact pass1Line_nil
      calc (D ++ [[]]).map pass1Line = (D ++ [[]]).map id := List.map_congr_left hpt
        _ = D ++ [[]] := List.map_id _
    have hchainL : List.Chain' goodPair (D ++ [[]]) := by
      rw [List.chain'_append]
      refine ⟨?_, List.chain'_singleton _, ?_⟩
      · apply hchainC.prefix
        rw [hD]
        exact dropTrailEmpty_pref C
      · intro x _ y hy
        simp at hy
        exact goodPair_blank_right _ _ (by rw [hy]; exact isBlank_nil)
    have hpass2 : pass2 (D ++ [[]]) = D ++ [[]] := pass2_stable _ hchainL
    rw [hsplit, hmap, hpass2, joinSep_concat _ _ _ hDnil, ← hstrip,
      collapseNl_output_stable, rstripNl_append_nl,
      rstripNl_no_trail _ (rstripNl_getLast _)]

end Luciferase
